import Mathlib

/-!
# Bounded character queue of `sema.c`

A shallow embedding of the thread-safe circular queue in `src/sema.c`
(`queue_init`, `queue_append`, `queue_pop`) and of its test harness
(`producer`, `consumer`, `main`).

Modelling conventions.

* `size_t` fields are natural numbers; the increments of lines 61, 64 and 78
  are reduced modulo `2 ^ 64` as the C arithmetic does.
* A counting semaphore is its value, a natural number.  `sem_wait` on the
  value `0` suspends the caller (`Outcome.blocked`); `sem_post` adds one.
* The mutex is a boolean, `true` when some thread holds it.
* A failing `assert` is `Outcome.abort`; an access to `buffer` outside its
  `MAX` slots is `Outcome.undefined`.
* The library calls of `queue_append` and `queue_pop` (`sem_wait`,
  `pthread_mutex_lock`, `pthread_mutex_unlock`, `sem_post`) are applied to
  objects set up by `queue_init`; their error returns (`EINVAL`, `EINTR`,
  and `EOVERFLOW` of a `sem_post` at the largest semaphore value) and the
  `CHECK` exits around them are not modelled.  The `CHECK` exits of
  `queue_init` are modelled through `SysCalls`.
* Threads interleave at the granularity of the library calls: a step of a
  thread is its `sem_wait`, its `pthread_mutex_lock`, its critical section
  (lines 60-64 or 77-82, which only the holder of the mutex runs), its
  `pthread_mutex_unlock` or its `sem_post`.  A schedule is the list of the
  threads that take the successive steps.
* The mutex of the model does not record who holds it.  `execOwner` runs a
  schedule as `exec` does and derives the holder from the steps: the thread
  whose step took the free mutex, until a step frees it.
* `sem_open(name, O_CREAT, 0600, v)` creates a semaphore with value `v` when
  no semaphore of that name exists; when one exists it is opened, the
  arguments `0600` and `v` are ignored and the semaphore keeps its value
  (no `O_EXCL` is passed).  `SysCalls` says whether semaphores named
  `"full"` and `"empty"` exist when `queue_init` runs, and with which values.
-/

namespace Sema

/-! ## Data model -/

/-- Capacity of the queue: `#define MAX 10`. -/
def MAX : Nat := 10

/-- Modulus of `size_t` arithmetic. -/
def SIZE_MOD : Nat := 2 ^ 64

/-- The struct `queue_s` (lines 21-29).  The field `in` of the source is
`in_` here, `in` being reserved. -/
structure queue_s where
  /-- circular buffer -/
  buffer : Nat → Char
  /-- position of producer in buffer -/
  in_ : Nat
  /-- position of consumer in buffer -/
  out : Nat
  /-- number of unconsumed items -/
  count : Nat
  /-- mutex protecting buffer, in, out, count; `true` when held -/
  mutex : Bool
  /-- semaphore counting empty slots in buffer -/
  empty : Nat
  /-- semaphore counting full slots in buffer -/
  full : Nat

/-- Result of running a piece of the program. -/
inductive Outcome (α : Type) where
  /-- the code ran to its end -/
  | done (a : α) : Outcome α
  /-- no step is taken: the caller is suspended in `sem_wait` or
  `pthread_mutex_lock` (in the thread model also: the thread has returned) -/
  | blocked : Outcome α
  /-- an `assert` failed -/
  | abort : Outcome α
  /-- undefined behaviour: array access out of bounds, unlock of a free mutex -/
  | undefined : Outcome α

/-- Sequencing of program pieces. -/
def Outcome.bind {α β : Type} (x : Outcome α) (f : α → Outcome β) : Outcome β :=
  match x with
  | .done a => f a
  | .blocked => .blocked
  | .abort => .abort
  | .undefined => .undefined

/-- Whether the code ran to its end. -/
def Outcome.isDone {α : Type} (x : Outcome α) : Bool :=
  match x with
  | .done _ => true
  | _ => false

/-- Value carried by a finished piece of code, if it finished. -/
def Outcome.get? {α : Type} (x : Outcome α) : Option α :=
  match x with
  | .done a => some a
  | _ => none

/-- Value carried by a finished piece of code, with a fallback. -/
def Outcome.getD {α : Type} (x : Outcome α) (d : α) : α :=
  match x with
  | .done a => a
  | _ => d

/-! ## Library primitives -/

/-- The call `sem_wait(q->empty)`. -/
def sem_wait_empty (q : queue_s) : Outcome queue_s :=
  if 0 < q.empty then .done { q with empty := q.empty - 1 } else .blocked

/-- The call `sem_wait(q->full)`. -/
def sem_wait_full (q : queue_s) : Outcome queue_s :=
  if 0 < q.full then .done { q with full := q.full - 1 } else .blocked

/-- The call `sem_post(q->empty)`. -/
def sem_post_empty (q : queue_s) : queue_s :=
  { q with empty := q.empty + 1 }

/-- The call `sem_post(q->full)`. -/
def sem_post_full (q : queue_s) : queue_s :=
  { q with full := q.full + 1 }

/-- The call `pthread_mutex_lock(&q->mutex)`. -/
def pthread_mutex_lock (q : queue_s) : Outcome queue_s :=
  if q.mutex then .blocked else .done { q with mutex := true }

/-- The call `pthread_mutex_unlock(&q->mutex)`. -/
def pthread_mutex_unlock (q : queue_s) : Outcome queue_s :=
  if q.mutex then .done { q with mutex := false } else .undefined

/-! ## `queue_init` -/

/-- Success or failure of each library call checked by `queue_init`. -/
structure SysCalls where
  /-- whether `pthread_mutex_init(&q->mutex, NULL) == 0` -/
  mutex_init_ok : Bool
  /-- whether `sem_open("full", ...) != SEM_FAILED` -/
  open_full_ok : Bool
  /-- whether `sem_unlink("full") == 0` -/
  unlink_full_ok : Bool
  /-- whether `sem_open("empty", ...) != SEM_FAILED` -/
  open_empty_ok : Bool
  /-- whether `sem_unlink("empty") == 0` -/
  unlink_empty_ok : Bool
  /-- value of the semaphore named `"full"` that exists system-wide when
  `queue_init` runs, if there is one -/
  full_existing : Option Nat
  /-- value of the semaphore named `"empty"` that exists system-wide when
  `queue_init` runs, if there is one -/
  empty_existing : Option Nat

/-- Every library call succeeds and no semaphore named `"full"` or `"empty"`
exists beforehand. -/
def SysCalls.allOk : SysCalls :=
  { mutex_init_ok := true, open_full_ok := true, unlink_full_ok := true,
    open_empty_ok := true, unlink_empty_ok := true,
    full_existing := none, empty_existing := none }

/-- Every library call succeeds, and semaphores named `"full"` and `"empty"`
exist beforehand with the values `2` and `3`, as another process that called
`sem_open` with these names leaves them. -/
def SysCalls.stale : SysCalls :=
  { mutex_init_ok := true, open_full_ok := true, unlink_full_ok := true,
    open_empty_ok := true, unlink_empty_ok := true,
    full_existing := some 2, empty_existing := some 3 }

/-- Every library call succeeds, and a semaphore named `"empty"` exists
beforehand with the value `12`. -/
def SysCalls.surplus : SysCalls :=
  { mutex_init_ok := true, open_full_ok := true, unlink_full_ok := true,
    open_empty_ok := true, unlink_empty_ok := true,
    full_existing := none, empty_existing := some 12 }

/-- Every library call succeeds, and a semaphore named `"empty"` exists
beforehand with the value `0`. -/
def SysCalls.drained : SysCalls :=
  { mutex_init_ok := true, open_full_ok := true, unlink_full_ok := true,
    open_empty_ok := true, unlink_empty_ok := true,
    full_existing := none, empty_existing := some 0 }

/-- Whether `queue_init` creates both semaphores: none of the two names
exists beforehand. -/
def SysCalls.fresh (sys : SysCalls) : Bool :=
  sys.full_existing.isNone && sys.empty_existing.isNone

/-- The value of the semaphore that a successful
`sem_open(name, O_CREAT, 0600, value)` returns: `value` when the call creates
the semaphore, the value it has when a semaphore of that name exists
already. -/
def sem_open (existing : Option Nat) (value : Nat) : Nat :=
  match existing with
  | none => value
  | some v => v

/-- The function `queue_init` (lines 31-44).  `none` is the `exit` taken by a
failed `CHECK`.  The buffer is left as it was. -/
def queue_init (sys : SysCalls) (q : queue_s) : Option queue_s :=
  let q1 := { q with count := 0 }
  let q2 := { q1 with in_ := 0 }
  let q3 := { q2 with out := 0 }
  if sys.mutex_init_ok then
    let q4 := { q3 with mutex := false }
    if sys.open_full_ok then
      let q5 := { q4 with full := sem_open sys.full_existing 0 }
      if sys.unlink_full_ok then
        if sys.open_empty_ok then
          let q6 := { q5 with empty := sem_open sys.empty_existing MAX }
          if sys.unlink_empty_ok then some q6 else none
        else none
      else none
    else none
  else none

/-! ## `queue_append` and `queue_pop` -/

/-- Lines 60-64 of `queue_append`, run while the mutex is held. -/
def append_body (q : queue_s) (c : Char) : Outcome queue_s :=
  if q.in_ < MAX then
    let q1 := { q with buffer := fun i => if i = q.in_ then c else q.buffer i }
    let q2 := { q1 with in_ := (q1.in_ + 1) % SIZE_MOD }
    let q3 := { q2 with in_ := q2.in_ % MAX }
    if q3.count < MAX then
      .done { q3 with count := (q3.count + 1) % SIZE_MOD }
    else .abort
  else .undefined

/-- Lines 77-82 of `queue_pop`, run while the mutex is held; yields `val`. -/
def pop_body (q : queue_s) : Outcome (Char × queue_s) :=
  if q.out < MAX then
    let val := q.buffer q.out
    let q1 := { q with out := (q.out + 1) % SIZE_MOD }
    let q2 := { q1 with out := q1.out % MAX }
    if 0 < q2.count then
      let q3 := { q2 with count := q2.count - 1 }
      if q3.count = ((q3.in_ + MAX) % SIZE_MOD + SIZE_MOD - q3.out) % SIZE_MOD % MAX then
        .done (val, q3)
      else .abort
    else .abort
  else .undefined

/-- The function `queue_append` (lines 55-68), run by one caller with no
other thread taking steps in between. -/
def queue_append (q : queue_s) (c : Char) : Outcome queue_s :=
  (sem_wait_empty q).bind fun q1 =>
  (pthread_mutex_lock q1).bind fun q2 =>
  (append_body q2 c).bind fun q3 =>
  (pthread_mutex_unlock q3).bind fun q4 =>
  .done (sem_post_full q4)

/-- The function `queue_pop` (lines 72-87), run by one caller with no other
thread taking steps in between; yields the returned character. -/
def queue_pop (q : queue_s) : Outcome (Char × queue_s) :=
  (sem_wait_full q).bind fun q1 =>
  (pthread_mutex_lock q1).bind fun q2 =>
  (pop_body q2).bind fun r =>
  (pthread_mutex_unlock r.2).bind fun q4 =>
  .done (r.1, sem_post_empty q4)

/-! ## Sequences of whole operations -/

/-- A call made on the queue. -/
inductive Op where
  /-- the call `queue_append(q, c)` -/
  | append (c : Char) : Op
  /-- the call `queue_pop(q)` -/
  | pop : Op
  deriving DecidableEq

/-- Arguments of the `queue_append` calls of a sequence, in order. -/
def appended : List Op → List Char
  | [] => []
  | .append c :: r => c :: appended r
  | .pop :: r => appended r

/-- Number of `queue_pop` calls of a sequence. -/
def pops : List Op → Nat
  | [] => 0
  | .append _ :: r => pops r
  | .pop :: r => pops r + 1

/-- Run a sequence of calls one after the other; yields the characters
returned by the pops, in order, and the final queue. -/
def run (q : queue_s) : List Op → Outcome (List Char × queue_s)
  | [] => .done ([], q)
  | .append c :: r => (queue_append q c).bind fun q1 => run q1 r
  | .pop :: r =>
    (queue_pop q).bind fun p => (run p.2 r).bind fun res => .done (p.1 :: res.1, res.2)

/-- The guards of a sequence of calls: each append is issued when
`count < MAX` and each pop when `count > 0`.  Nothing is asked of whether a
call completes. -/
def guarded (q : queue_s) : List Op → Bool
  | [] => true
  | .append c :: r =>
    decide (q.count < MAX) &&
      match queue_append q c with
      | .done q1 => guarded q1 r
      | _ => true
  | .pop :: r =>
    decide (0 < q.count) &&
      match queue_pop q with
      | .done p => guarded p.2 r
      | _ => true

/-- States reached from `queue_init` by completed calls. -/
inductive SeqReach : queue_s → Prop where
  | init (sys : SysCalls) (q0 q : queue_s) (h : queue_init sys q0 = some q) : SeqReach q
  | append (q q1 : queue_s) (c : Char) (hq : SeqReach q)
      (h : queue_append q c = .done q1) : SeqReach q1
  | pop (q : queue_s) (p : Char × queue_s) (hq : SeqReach q)
      (h : queue_pop q = .done p) : SeqReach p.2

/-! ## Threads -/

/-- Position of a thread inside the call it is running. -/
inductive PC where
  /-- between calls: before line 57 (append) or 74 (pop) -/
  | idle : PC
  /-- after `sem_wait`, before `pthread_mutex_lock` (line 58 or 75) -/
  | waited : PC
  /-- holding the mutex, before line 60 or 77 -/
  | locked : PC
  /-- holding the mutex, before `pthread_mutex_unlock` (line 66 or 84) -/
  | bodydone : PC
  /-- after the unlock, before `sem_post` (line 67 or 85) -/
  | unlocked : PC
  deriving DecidableEq

/-- A thread calling the queue. -/
structure Thread where
  /-- calls still to be made; the head is the one in progress -/
  prog : List Op
  /-- position inside the call in progress -/
  pc : PC
  /-- the local `val` of `queue_pop` -/
  val : Char
  /-- arguments of the calls of `queue_append` that have returned -/
  sent : List Char
  /-- results of the calls of `queue_pop` that have returned -/
  got : List Char

/-- A thread about to run the given calls. -/
def Thread.start (prog : List Op) : Thread :=
  { prog := prog, pc := .idle, val := Char.ofNat 0, sent := [], got := [] }

/-- One step of a thread on the shared queue. -/
def stepThread (q : queue_s) (t : Thread) : Outcome (queue_s × Thread) :=
  match t.prog with
  | [] => .blocked
  | .append c :: rest =>
    match t.pc with
    | .idle => (sem_wait_empty q).bind fun q1 => .done (q1, { t with pc := .waited })
    | .waited => (pthread_mutex_lock q).bind fun q1 => .done (q1, { t with pc := .locked })
    | .locked => (append_body q c).bind fun q1 => .done (q1, { t with pc := .bodydone })
    | .bodydone => (pthread_mutex_unlock q).bind fun q1 => .done (q1, { t with pc := .unlocked })
    | .unlocked =>
      .done (sem_post_full q, { t with pc := .idle, prog := rest, sent := t.sent ++ [c] })
  | .pop :: rest =>
    match t.pc with
    | .idle => (sem_wait_full q).bind fun q1 => .done (q1, { t with pc := .waited })
    | .waited => (pthread_mutex_lock q).bind fun q1 => .done (q1, { t with pc := .locked })
    | .locked => (pop_body q).bind fun r => .done (r.2, { t with pc := .bodydone, val := r.1 })
    | .bodydone => (pthread_mutex_unlock q).bind fun q1 => .done (q1, { t with pc := .unlocked })
    | .unlocked =>
      .done (sem_post_empty q, { t with pc := .idle, prog := rest, got := t.got ++ [t.val] })

/-- The shared queue and the threads using it. -/
structure State where
  /-- the shared queue -/
  q : queue_s
  /-- the threads -/
  threads : List Thread

/-- Thread number `i` takes one step. -/
def step (s : State) (i : Nat) : Outcome State :=
  match s.threads[i]? with
  | none => .blocked
  | some t => (stepThread s.q t).bind fun r => .done { q := r.1, threads := s.threads.set i r.2 }

/-- Run a schedule: the threads named take one step each, in turn. -/
def exec (s : State) : List Nat → Outcome State
  | [] => .done s
  | i :: rest => (step s i).bind fun s1 => exec s1 rest

/-- The state in which the threads are started on an initialised queue. -/
def startState (q : queue_s) (progs : List (List Op)) : State :=
  { q := q, threads := progs.map Thread.start }

/-- No call is in progress. -/
def State.quiescent (s : State) : Bool :=
  s.threads.all fun t => decide (t.pc = .idle)

/-- Every thread has returned. -/
def State.finished (s : State) : Bool :=
  s.threads.all fun t => decide (t.pc = .idle) && t.prog.isEmpty

/-! ## Test harness -/

/-- The thread `producer` (lines 95-105): appends the characters of
`"HelloWorld"`. -/
def producer : Thread :=
  Thread.start ("HelloWorld".toList.map Op.append)

/-- The thread `consumer` (lines 107-115): five pops; its `got` is the array
`substring`. -/
def consumer : Thread :=
  Thread.start (List.replicate 5 Op.pop)

/-- The threads of `main` (lines 121-124) on the queue initialised at line 120. -/
def main_start (q : queue_s) : State :=
  { q := q, threads := [consumer, producer] }

/-! ## Invariants -/

/-- Ring-buffer invariant of the queue fields.  `P` lists the characters
written by the appends so far and `T` those read by the pops so far: `T` is
the front part of `P`, the characters in between sit in the slots from `out`
up to `in`, and `count` is their number. -/
structure QInv (q : queue_s) (P T : List Char) : Prop where
  in_eq : q.in_ = P.length % MAX
  out_eq : q.out = T.length % MAX
  cnt : T.length + q.count = P.length
  le : q.count ≤ MAX
  pre : T = P.take T.length
  slot : ∀ k, T.length ≤ k → k < P.length → P[k]? = some (q.buffer (k % MAX))

/-- Invariant of the queue between whole calls, `e0` and `f0` being the
values `queue_init` left in the empty and the full semaphore (`MAX` and `0`
when it created them): the ring-buffer invariant, the semaphores follow
`count`, the mutex is free. -/
structure SeqInv (e0 f0 : Nat) (q : queue_s) (P T : List Char) : Prop where
  ring : QInv q P T
  hE : q.empty + q.count = e0
  hF : q.full = q.count + f0
  hM : q.mutex = false

/-- Units of the empty semaphore a thread has taken and not yet turned into
an item (append, lines 58-64) or has freed and not yet posted (pop, lines
84-85). -/
def heldEmpty (t : Thread) : Nat :=
  match t.pc with
  | .idle => 0
  | .waited | .locked =>
    match t.prog with
    | .append _ :: _ => 1
    | _ => 0
  | .bodydone | .unlocked =>
    match t.prog with
    | .pop :: _ => 1
    | _ => 0

/-- Items counted in `count` that the full semaphore does not show: written
and not yet posted (append, lines 66-67), or claimed and not yet removed
(pop, lines 75-81). -/
def pendingFull (t : Thread) : Nat :=
  match t.pc with
  | .idle => 0
  | .waited | .locked =>
    match t.prog with
    | .pop :: _ => 1
    | _ => 0
  | .bodydone | .unlocked =>
    match t.prog with
    | .append _ :: _ => 1
    | _ => 0

/-- Whether a thread holds the mutex, as a number. -/
def holdsMutex (t : Thread) : Nat :=
  match t.pc with
  | .locked | .bodydone =>
    match t.prog with
    | [] => 0
    | _ :: _ => 1
  | _ => 0

/-- Characters a thread has written into the buffer: those of its returned
appends and the one of an append past line 64. -/
def pushedBy (t : Thread) : Multiset Char :=
  (t.sent : Multiset Char) +
    match t.pc with
    | .bodydone | .unlocked =>
      match t.prog with
      | .append c :: _ => {c}
      | _ => 0
    | _ => 0

/-- Characters a thread has read from the buffer: those of its returned pops
and the `val` of a pop past line 81. -/
def takenBy (t : Thread) : Multiset Char :=
  (t.got : Multiset Char) +
    match t.pc with
    | .bodydone | .unlocked =>
      match t.prog with
      | .pop :: _ => {t.val}
      | _ => 0
    | _ => 0

/-- Character written by the step a thread is about to take, if it is the
body of an append. -/
def pushEv (t : Thread) : List Char :=
  match t.prog with
  | [] => []
  | .pop :: _ => []
  | .append c :: _ =>
    match t.pc with
    | .locked => [c]
    | _ => []

/-- Character read by the step a thread is about to take, if it is the body
of a pop. -/
def takeEv (q : queue_s) (t : Thread) : List Char :=
  match t.prog with
  | [] => []
  | .append _ :: _ => []
  | .pop :: _ =>
    match t.pc with
    | .locked => [q.buffer q.out]
    | _ => []

/-- Invariant of the thread model, `e0` and `f0` being the values
`queue_init` left in the empty and the full semaphore (`MAX` and `0` when it
created them). -/
structure Inv (e0 f0 : Nat) (s : State) (P T : List Char) : Prop where
  ring : QInv s.q P T
  hE : s.q.empty + (s.threads.map heldEmpty).sum + s.q.count = e0
  hF : s.q.full + (s.threads.map pendingFull).sum = s.q.count + f0
  hM : (s.threads.map holdsMutex).sum = if s.q.mutex then 1 else 0
  hP : (s.threads.map pushedBy).sum = (P : Multiset Char)
  hT : (s.threads.map takenBy).sum = (T : Multiset Char)

/-- Character a thread has written in the append it is still running. -/
def inflightPush (t : Thread) : List Char :=
  match t.pc with
  | .bodydone | .unlocked =>
    match t.prog with
    | .append c :: _ => [c]
    | _ => []
  | _ => []

/-- Character a thread has read in the pop it is still running. -/
def inflightTake (t : Thread) : List Char :=
  match t.pc with
  | .bodydone | .unlocked =>
    match t.prog with
    | .pop :: _ => [t.val]
    | _ => []
  | _ => []

/-- Invariant of a state with one consumer, making only pops, and one
producer, making only appends: `T` is what the consumer has read, `P` what
the producer has written, `A` what the producer is to append in all and `n`
the number of pops the consumer is to make in all. -/
structure PairInv (s : State) (P T A : List Char) (n : Nat) : Prop where
  threads : ∃ c p, s.threads = [c, p] ∧
    c.sent = [] ∧ appended c.prog = [] ∧ p.got = [] ∧ pops p.prog = 0 ∧
    c.got ++ inflightTake c = T ∧ p.sent ++ inflightPush p = P ∧
    p.sent ++ appended p.prog = A ∧ c.got.length + pops c.prog = n

/-! ## The holder of the mutex -/

/-- The thread holding the mutex after thread `i` has stepped from `s` to
`s1`: the thread whose step took the free mutex holds it until a step frees
it. -/
def ownerAfter (s s1 : State) (i : Nat) (o : Option Nat) : Option Nat :=
  if !s.q.mutex && s1.q.mutex then some i
  else if s.q.mutex && !s1.q.mutex then none
  else o

/-- Run a schedule as `exec` does, keeping track of the holder of the mutex. -/
def execOwner (s : State) (o : Option Nat) : List Nat → Outcome (State × Option Nat)
  | [] => .done (s, o)
  | i :: rest => (step s i).bind fun s1 => execOwner s1 (ownerAfter s s1 i o) rest

/-- Invariant of the holder of the mutex: there is one exactly when the mutex
is held, and it is the one thread between its lock and its unlock. -/
structure OwnInv (s : State) (o : Option Nat) : Prop where
  some_iff : o.isSome = s.q.mutex
  owner_holds : ∀ j, o = some j → ∃ t, s.threads[j]? = some t ∧ holdsMutex t = 1
  holder_owns : ∀ k t, s.threads[k]? = some t → holdsMutex t = 1 → o = some k

/-! ## The abstract FIFO list -/

/-- Abstraction function: the characters held by the queue, oldest first,
`buffer[out], buffer[(out+1) % MAX], ..., buffer[(out+count-1) % MAX]`. -/
def contents (q : queue_s) : List Char :=
  (List.range q.count).map fun k => q.buffer ((q.out + k) % MAX)

/-- The abstract queue after initialisation: the empty list. -/
def fifo_init : List Char :=
  []

/-- The abstract append: `c` goes to the back of the list. -/
def fifo_append (l : List Char) (c : Char) : List Char :=
  l ++ [c]

/-- The abstract pop: the head of the list is returned and the tail is left;
nothing on the empty list. -/
def fifo_pop (l : List Char) : Option (Char × List Char) :=
  match l with
  | [] => none
  | x :: r => some (x, r)

/-! ## Concrete states used as instances -/

/-- A queue holding stale values, as `queue_init` may receive it. -/
def stale_queue : queue_s :=
  { buffer := fun _ => 'x', in_ := 7, out := 3, count := 99, mutex := true,
    empty := 4, full := 5 }

/-- The queue `queue_init` makes of `stale_queue` when it creates both
semaphores. -/
def fresh_queue : queue_s :=
  { buffer := fun _ => 'x', in_ := 0, out := 0, count := 0, mutex := false,
    empty := MAX, full := 0 }

/-- The queue `queue_init` makes of `stale_queue` when semaphores named
`"full"` and `"empty"` exist with the values `2` and `3`. -/
def stale_init_queue : queue_s :=
  { buffer := fun _ => 'x', in_ := 0, out := 0, count := 0, mutex := false,
    empty := 3, full := 2 }

/-- The queue after `queue_append(q, 'H')` on `fresh_queue`. -/
def one_queue : queue_s :=
  { buffer := fun i => if i = 0 then 'H' else 'x', in_ := 1, out := 0, count := 1,
    mutex := false, empty := 9, full := 1 }

/-- A sequence of calls in which `in` and `out` pass `MAX`: eight appends and
eight pops, twice. -/
def wrap_ops : List Op :=
  "abcdefgh".toList.map Op.append ++ List.replicate 8 Op.pop ++
    "ijklmnop".toList.map Op.append ++ List.replicate 8 Op.pop

/-- The calls of the two threads of `main`: the consumer's, then the producer's. -/
def harness_progs : List (List Op) :=
  [List.replicate 5 Op.pop, "HelloWorld".toList.map Op.append]

/-- A schedule of `main` that stops with both threads inside a call. -/
def sched_mid : List Nat :=
  [1, 1, 1, 1, 1, 1, 1, 0, 1]

/-- A schedule of `main` in which the producer completes three appends and
the consumer one pop, interleaved. -/
def sched_quiet : List Nat :=
  [1, 1, 1, 1, 1, 0, 1, 0, 0, 0, 1, 0, 1, 1, 1, 1, 1, 1, 1, 1]

/-- A schedule of `main` that runs both threads to their end: the consumer
pops each of the first five characters while the producer appends the next
one, then the producer finishes. -/
def sched_full : List Nat :=
  [1, 1, 1, 1, 1] ++
    (List.replicate 5 [0, 1, 0, 0, 0, 1, 0, 1, 1, 1]).flatten ++
    List.replicate 20 1

/-- Two producers and two consumers. -/
def crowd_progs : List (List Op) :=
  [[Op.append 'a', Op.append 'b'], [Op.pop, Op.pop], [Op.append 'c'], [Op.pop]]

/-- A schedule of `crowd_progs` that runs all four threads to their end. -/
def sched_crowd : List Nat :=
  [0, 2, 0, 0, 0, 2, 0, 1, 2, 2, 1, 2, 3, 1, 1, 3, 1, 3, 0, 3, 0, 3, 0, 0, 0, 1, 1, 1, 1, 1]

/-- The state of `main` after `sched_mid`. -/
def state_mid : State :=
  (exec (startState fresh_queue harness_progs) sched_mid).getD
    (startState fresh_queue harness_progs)

/-- The state of `main` after `sched_quiet`. -/
def state_quiet : State :=
  (exec (startState fresh_queue harness_progs) sched_quiet).getD
    (startState fresh_queue harness_progs)

/-- The state of the four threads of `crowd_progs` after `sched_crowd`. -/
def state_crowd : State :=
  (exec (startState fresh_queue crowd_progs) sched_crowd).getD
    (startState fresh_queue crowd_progs)

/-- The ten appends of `producer`, as a sequence of whole calls. -/
def hello_appends : List Op :=
  "HelloWorld".toList.map Op.append

/-- The queue after the ten appends of `"HelloWorld"` and no pop. -/
def full_queue : queue_s :=
  ((run fresh_queue hello_appends).getD ([], fresh_queue)).2

/-- The queue after `queue_append(q, 'H')` on `fresh_queue`, by running it. -/
def one_queue_run : queue_s :=
  (queue_append fresh_queue 'H').getD fresh_queue

/-- The state of `main` after `sched_full`, when both threads are joined. -/
def state_full : State :=
  (exec (main_start fresh_queue) sched_full).getD (main_start fresh_queue)

/-- A schedule of `main` after which the consumer is about to run the
critical section of its first pop while the producer waits for the mutex. -/
def sched_pop_locked : List Nat :=
  [1, 1, 1, 1, 1, 0, 1, 0]

/-- The state of `main` after `sched_pop_locked`. -/
def state_pop_locked : State :=
  (exec (startState fresh_queue harness_progs) sched_pop_locked).getD
    (startState fresh_queue harness_progs)

/-- A schedule of `main` in which the producer fills the queue with its ten
appends and the consumer then takes the mutex for its first pop. -/
def sched_pop_full : List Nat :=
  List.replicate 50 1 ++ [0, 0]

/-- The state of `main` after `sched_pop_full`: `count = MAX` and the
consumer about to run the critical section of `queue_pop`. -/
def state_pop_full : State :=
  (exec (startState fresh_queue harness_progs) sched_pop_full).getD
    (startState fresh_queue harness_progs)

/-- A schedule of `main` after which the producer is about to write its tenth
character, into the last slot of the buffer. -/
def sched_last_slot : List Nat :=
  List.replicate 45 1 ++ [1, 1]

/-- The state of `main` after `sched_last_slot`. -/
def state_last_slot : State :=
  (exec (startState fresh_queue harness_progs) sched_last_slot).getD
    (startState fresh_queue harness_progs)

/-- Calls after which the characters held wrap around the end of the buffer:
eight appends, five pops, six appends. -/
def wrapped_ops : List Op :=
  "abcdefgh".toList.map Op.append ++ List.replicate 5 Op.pop ++
    "ijklmn".toList.map Op.append

/-- The queue after `wrapped_ops`: `out = 5`, `in = 4`, `count = 9`. -/
def wrapped_queue : queue_s :=
  ((run fresh_queue wrapped_ops).getD ([], fresh_queue)).2

/-- The state of `main` after `sched_quiet`, started on `stale_init_queue`. -/
def stale_quiet : State :=
  (exec (startState stale_init_queue harness_progs) sched_quiet).getD
    (startState stale_init_queue harness_progs)

/-- The queue after three appends on `stale_init_queue`. -/
def stale_three : queue_s :=
  ((run stale_init_queue ("Hel".toList.map Op.append)).getD ([], stale_init_queue)).2

/-- The state of `main` on `stale_init_queue` after the consumer's `sem_wait`
and lock. -/
def stale_pop_locked : State :=
  (exec (startState stale_init_queue harness_progs) [0, 0]).getD
    (startState stale_init_queue harness_progs)

/-- The queue `queue_init` makes of `stale_queue` when a semaphore named
`"empty"` exists with the value `12`. -/
def surplus_init_queue : queue_s :=
  { buffer := fun _ => 'x', in_ := 0, out := 0, count := 0, mutex := false,
    empty := 12, full := 0 }

/-- One thread making eleven appends. -/
def eleven_progs : List (List Op) :=
  ["HelloWorld!".toList.map Op.append]

/-- The state of the thread of `eleven_progs` on `surplus_init_queue` after
ten appends and the `sem_wait` and lock of the eleventh. -/
def surplus_append_locked : State :=
  (exec (startState surplus_init_queue eleven_progs) (List.replicate 52 0)).getD
    (startState surplus_init_queue eleven_progs)

/-- The queue `queue_init` makes of `stale_queue` when a semaphore named
`"empty"` exists with the value `0`. -/
def drained_init_queue : queue_s :=
  { buffer := fun _ => 'x', in_ := 0, out := 0, count := 0, mutex := false,
    empty := 0, full := 0 }

/-! ## Inversion of the primitives -/

/-- A completed `sem_wait(q->empty)` found the value positive and lowered it
by one. -/
theorem sem_wait_empty_done {q q1 : queue_s} (h : sem_wait_empty q = .done q1) :
    0 < q.empty ∧ q1 = { q with empty := q.empty - 1 } := by
  unfold sem_wait_empty at h
  split at h
  · rename_i hpos
    cases h
    exact ⟨hpos, rfl⟩
  · cases h

/-- A completed `sem_wait(q->full)` found the value positive and lowered it by
one. -/
theorem sem_wait_full_done {q q1 : queue_s} (h : sem_wait_full q = .done q1) :
    0 < q.full ∧ q1 = { q with full := q.full - 1 } := by
  unfold sem_wait_full at h
  split at h
  · rename_i hpos
    cases h
    exact ⟨hpos, rfl⟩
  · cases h

/-- A completed lock found the mutex free and took it. -/
theorem pthread_mutex_lock_done {q q1 : queue_s} (h : pthread_mutex_lock q = .done q1) :
    q.mutex = false ∧ q1 = { q with mutex := true } := by
  unfold pthread_mutex_lock at h
  split at h
  · cases h
  · rename_i hm
    cases h
    exact ⟨by simpa using hm, rfl⟩

/-- A completed unlock found the mutex held and freed it. -/
theorem pthread_mutex_unlock_done {q q1 : queue_s} (h : pthread_mutex_unlock q = .done q1) :
    q.mutex = true ∧ q1 = { q with mutex := false } := by
  unfold pthread_mutex_unlock at h
  split at h
  · rename_i hm
    cases h
    exact ⟨hm, rfl⟩
  · cases h

/-- A sequence that ran to its end ran both of its parts to their end. -/
theorem bind_done {α β : Type} {x : Outcome α} {f : α → Outcome β} {b : β}
    (h : x.bind f = .done b) : ∃ a, x = .done a ∧ f a = .done b := by
  cases x with
  | done a => exact ⟨a, rfl, h⟩
  | blocked => cases h
  | abort => cases h
  | undefined => cases h

/-- A completed critical section of `queue_append`: both checks passed, and
the state after it. -/
theorem append_body_done {q q1 : queue_s} {c : Char} (h : append_body q c = .done q1) :
    q.in_ < MAX ∧ q.count < MAX ∧
      q1 = { q with buffer := fun i => if i = q.in_ then c else q.buffer i,
                    in_ := (q.in_ + 1) % MAX, count := q.count + 1 } := by
  unfold append_body at h
  split at h
  · rename_i hi
    simp only at h
    split at h
    · rename_i hc
      cases h
      refine ⟨hi, hc, ?_⟩
      have h1 : (q.in_ + 1) % SIZE_MOD = q.in_ + 1 := by
        apply Nat.mod_eq_of_lt; unfold MAX at hi; unfold SIZE_MOD; omega
      have h2 : (q.count + 1) % SIZE_MOD = q.count + 1 := by
        apply Nat.mod_eq_of_lt; unfold MAX at hc; unfold SIZE_MOD; omega
      rw [h1, h2]
    · cases h
  · cases h

/-- A completed critical section of `queue_pop`: the checks passed, the value
read and the state after it. -/
theorem pop_body_done {q : queue_s} {r : Char × queue_s} (h : pop_body q = .done r) :
    q.out < MAX ∧ 0 < q.count ∧ r.1 = q.buffer q.out ∧
      r.2 = { q with out := (q.out + 1) % MAX, count := q.count - 1 } ∧
      q.count - 1 = ((q.in_ + MAX) % SIZE_MOD + SIZE_MOD - (q.out + 1) % MAX) % SIZE_MOD % MAX := by
  unfold pop_body at h
  split at h
  · rename_i ho
    simp only at h
    split at h
    · rename_i hc
      split at h
      · rename_i ha
        cases h
        have h1 : (q.out + 1) % SIZE_MOD = q.out + 1 := by
          apply Nat.mod_eq_of_lt; unfold MAX at ho; unfold SIZE_MOD; omega
        rw [h1] at ha
        refine ⟨ho, hc, rfl, ?_, ha⟩
        simp only [h1]
      · cases h
    · cases h
  · cases h

/-- What a completed `queue_init` leaves in the queue. -/
theorem queue_init_done {sys : SysCalls} {q0 q : queue_s} (h : queue_init sys q0 = some q) :
    q.count = 0 ∧ q.in_ = 0 ∧ q.out = 0 ∧ q.empty = sem_open sys.empty_existing MAX ∧
      q.full = sem_open sys.full_existing 0 ∧ q.mutex = false ∧ q.buffer = q0.buffer := by
  unfold queue_init at h
  simp only at h
  split at h <;> try cases h
  split at h <;> try cases h
  split at h <;> try cases h
  split at h <;> try cases h
  split at h <;> try cases h
  exact ⟨rfl, rfl, rfl, rfl, rfl, rfl, rfl⟩

/-- The semaphores `queue_init` leaves when it creates both. -/
theorem sem_open_fresh {sys : SysCalls} (h : sys.fresh = true) :
    sem_open sys.empty_existing MAX = MAX ∧ sem_open sys.full_existing 0 = 0 := by
  unfold SysCalls.fresh at h
  simp only [Bool.and_eq_true, Option.isNone_iff_eq_none] at h
  rw [h.1, h.2]
  exact ⟨rfl, rfl⟩

/-! ## Postconditions of the three functions -/

/-- C10, on the code: `queue_init` run while semaphores named `"full"` and
`"empty"` exist with the values `2` and `3` completes and leaves `count`,
`in` and `out` at `0`, but the empty semaphore holds `3`, not `MAX`, and the
full semaphore holds `2`, not `0`. -/
theorem queue_init_keeps_existing_semaphores :
    (queue_init SysCalls.stale stale_queue).map
        (fun q => (q.count, q.in_, q.out, q.empty, q.full, q.mutex)) =
      some (0, 0, 0, 3, 2, false) ∧
    queue_init SysCalls.stale stale_queue = some stale_init_queue ∧
    stale_init_queue.empty ≠ MAX ∧ stale_init_queue.full ≠ 0 := by
  refine ⟨rfl, rfl, by decide, by decide⟩

/-- Whenever `queue_init` completes, `count`, `in` and `out` are `0`, the
mutex is free and the buffer untouched; when it creates both semaphores the
empty semaphore holds `MAX` and the full semaphore holds `0`. -/
theorem queue_init_post_created (sys : SysCalls) (q0 q : queue_s)
    (h : queue_init sys q0 = some q) :
    (q.count = 0 ∧ q.in_ = 0 ∧ q.out = 0 ∧ q.mutex = false ∧ q.buffer = q0.buffer) ∧
    (sys.fresh = true → q.empty = MAX ∧ q.full = 0) := by
  obtain ⟨h1, h2, h3, h4, h5, h6, h7⟩ := queue_init_done h
  refine ⟨⟨h1, h2, h3, h6, h7⟩, fun hf => ?_⟩
  obtain ⟨e1, e2⟩ := sem_open_fresh hf
  rw [h4, h5, e1, e2]
  exact ⟨rfl, rfl⟩

/-- Instance of `queue_init_post_created`: all library calls succeed and
create the semaphores, on a queue holding stale values. -/
theorem queue_init_post_created_instance :
    queue_init SysCalls.allOk stale_queue = some fresh_queue ∧
    (fresh_queue.count = 0 ∧ fresh_queue.in_ = 0 ∧ fresh_queue.out = 0 ∧
      fresh_queue.mutex = false ∧ fresh_queue.buffer = stale_queue.buffer) ∧
    (SysCalls.allOk.fresh = true → fresh_queue.empty = MAX ∧ fresh_queue.full = 0) :=
  ⟨rfl, queue_init_post_created SysCalls.allOk stale_queue fresh_queue rfl⟩

/-- The function `queue_init` completes when every library call it checks
succeeds; here it creates both semaphores. -/
theorem queue_init_allOk (q0 : queue_s) :
    queue_init SysCalls.allOk q0 =
      some { q0 with count := 0, in_ := 0, out := 0, mutex := false, full := 0, empty := MAX } :=
  rfl

/-- C8: on a state with `count < MAX` and `in < MAX`, `queue_append(q, c)`
completes when the empty semaphore is positive and the mutex free, and a
completed call leaves `c` in `buffer[old in]`, `in` advanced modulo `MAX`,
`count` one higher, `out` and every other slot unchanged, the empty
semaphore one lower and the full semaphore one higher. -/
theorem queue_append_post (q : queue_s) (c : Char)
    (hc : q.count < MAX) (hi : q.in_ < MAX) :
    (0 < q.empty → q.mutex = false → (queue_append q c).isDone = true) ∧
    ∀ q1, queue_append q c = .done q1 →
      q1.buffer q.in_ = c ∧ q1.in_ = (q.in_ + 1) % MAX ∧ q1.count = q.count + 1 ∧
      q1.out = q.out ∧ (∀ i, i ≠ q.in_ → q1.buffer i = q.buffer i) ∧
      q1.empty + 1 = q.empty ∧ q1.full = q.full + 1 := by
  constructor
  · intro he hm
    have h1 : (q.in_ + 1) % SIZE_MOD = q.in_ + 1 := by
      apply Nat.mod_eq_of_lt; unfold MAX at hi; unfold SIZE_MOD; omega
    simp [queue_append, sem_wait_empty, pthread_mutex_lock, append_body,
      pthread_mutex_unlock, Outcome.bind, Outcome.isDone, he, hm, hi, hc]
  · intro q1 h
    unfold queue_append at h
    obtain ⟨a1, h1, h⟩ := bind_done h
    obtain ⟨a2, h2, h⟩ := bind_done h
    obtain ⟨a3, h3, h⟩ := bind_done h
    obtain ⟨a4, h4, h⟩ := bind_done h
    obtain ⟨he, rfl⟩ := sem_wait_empty_done h1
    obtain ⟨_, rfl⟩ := pthread_mutex_lock_done h2
    obtain ⟨_, _, rfl⟩ := append_body_done h3
    obtain ⟨_, rfl⟩ := pthread_mutex_unlock_done h4
    cases h
    refine ⟨by simp [sem_post_full], rfl, rfl, rfl, ?_, ?_, rfl⟩
    · intro i hne
      simp [sem_post_full, hne]
    · simp only [sem_post_full]
      omega

/-- Instance of `queue_append_post`: appending to the freshly initialised queue. -/
theorem queue_append_post_witness :
    fresh_queue.count < MAX ∧ fresh_queue.in_ < MAX ∧
    ((0 < fresh_queue.empty → fresh_queue.mutex = false →
        (queue_append fresh_queue 'H').isDone = true) ∧
      ∀ q1, queue_append fresh_queue 'H' = .done q1 →
        q1.buffer fresh_queue.in_ = 'H' ∧ q1.in_ = (fresh_queue.in_ + 1) % MAX ∧
        q1.count = fresh_queue.count + 1 ∧ q1.out = fresh_queue.out ∧
        (∀ i, i ≠ fresh_queue.in_ → q1.buffer i = fresh_queue.buffer i) ∧
        q1.empty + 1 = fresh_queue.empty ∧ q1.full = fresh_queue.full + 1) :=
  ⟨by decide, by decide, queue_append_post fresh_queue 'H' (by decide) (by decide)⟩

/-- C9: on a state with `count > 0` and `out < MAX`, when the assertion of
line 82 holds after the update, `queue_pop(q)` completes as soon as the full
semaphore is positive and the mutex free; a completed call returns
`buffer[old out]` and leaves `out` advanced modulo `MAX`, `count` one lower,
`in` and the buffer unchanged, the full semaphore one lower and the empty
semaphore one higher. -/
theorem queue_pop_post (q : queue_s) (hc : 0 < q.count) (ho : q.out < MAX) :
    (0 < q.full → q.mutex = false →
      q.count - 1 = ((q.in_ + MAX) % SIZE_MOD + SIZE_MOD - (q.out + 1) % MAX) % SIZE_MOD % MAX →
      (queue_pop q).isDone = true) ∧
    ∀ r, queue_pop q = .done r →
      r.1 = q.buffer q.out ∧ r.2.out = (q.out + 1) % MAX ∧ r.2.count = q.count - 1 ∧
      r.2.in_ = q.in_ ∧ r.2.buffer = q.buffer ∧
      r.2.full + 1 = q.full ∧ r.2.empty = q.empty + 1 := by
  constructor
  · intro hf hm ha
    have h1 : (q.out + 1) % SIZE_MOD = q.out + 1 := by
      apply Nat.mod_eq_of_lt; unfold MAX at ho; unfold SIZE_MOD; omega
    simp [queue_pop, sem_wait_full, pthread_mutex_lock, pop_body,
      pthread_mutex_unlock, Outcome.bind, Outcome.isDone, hf, hm, ho, hc, h1, ← ha]
  · intro r h
    unfold queue_pop at h
    obtain ⟨a1, h1, h⟩ := bind_done h
    obtain ⟨a2, h2, h⟩ := bind_done h
    obtain ⟨a3, h3, h⟩ := bind_done h
    obtain ⟨a4, h4, h⟩ := bind_done h
    obtain ⟨hf, rfl⟩ := sem_wait_full_done h1
    obtain ⟨_, rfl⟩ := pthread_mutex_lock_done h2
    obtain ⟨_, _, hv, h3, _⟩ := pop_body_done h3
    rw [h3] at h4
    obtain ⟨_, rfl⟩ := pthread_mutex_unlock_done h4
    cases h
    refine ⟨hv, rfl, rfl, rfl, rfl, ?_, rfl⟩
    simp only [sem_post_empty]
    omega

/-- Instance of `queue_pop_post`: popping from the queue that holds `'H'`. -/
theorem queue_pop_post_witness :
    0 < one_queue.count ∧ one_queue.out < MAX ∧
    ((0 < one_queue.full → one_queue.mutex = false →
      one_queue.count - 1 =
        ((one_queue.in_ + MAX) % SIZE_MOD + SIZE_MOD - (one_queue.out + 1) % MAX)
          % SIZE_MOD % MAX →
      (queue_pop one_queue).isDone = true) ∧
    ∀ r, queue_pop one_queue = .done r →
      r.1 = one_queue.buffer one_queue.out ∧ r.2.out = (one_queue.out + 1) % MAX ∧
      r.2.count = one_queue.count - 1 ∧ r.2.in_ = one_queue.in_ ∧
      r.2.buffer = one_queue.buffer ∧
      r.2.full + 1 = one_queue.full ∧ r.2.empty = one_queue.empty + 1) :=
  ⟨by decide, by decide, queue_pop_post one_queue (by decide) (by decide)⟩

/-- The call `queue_pop` on `one_queue` completes and returns `'H'`. -/
theorem queue_pop_one_queue :
    (queue_pop one_queue).isDone = true ∧
      (queue_pop one_queue).get?.map (fun r => r.1) = some 'H' := by
  constructor <;> rfl

/-- The call `queue_append` on `fresh_queue` completes and yields the fields of `one_queue`. -/
theorem queue_append_fresh_queue :
    (queue_append fresh_queue 'H').get?.map
        (fun q => (q.buffer 0, q.in_, q.out, q.count, q.mutex, q.empty, q.full)) =
      some ('H', 1, 0, 1, false, 9, 1) := by
  rfl

/-! ## The ring-buffer invariant -/

/-- The capacity as a numeral. -/
theorem MAX_eq : MAX = 10 := rfl

/-- The modulus of `size_t` as a numeral. -/
theorem SIZE_MOD_eq : SIZE_MOD = 18446744073709551616 := by
  unfold SIZE_MOD; norm_num

/-- The ring-buffer invariant holds after `queue_init`, nothing written or
read. -/
theorem QInv_init {sys : SysCalls} {q0 q : queue_s} (h : queue_init sys q0 = some q) :
    QInv q [] [] := by
  obtain ⟨hc, hi, ho, _, _, _, _⟩ := queue_init_done h
  exact ⟨by simp [hi], by simp [ho], by simp [hc], by simp [hc], rfl,
    fun k _ hk => absurd hk (by simp)⟩

/-- The ring-buffer invariant depends only on `buffer`, `in`, `out` and
`count`. -/
theorem QInv_congr {q q1 : queue_s} {P T : List Char} (h : QInv q P T)
    (hb : q1.buffer = q.buffer) (hi : q1.in_ = q.in_) (ho : q1.out = q.out)
    (hc : q1.count = q.count) : QInv q1 P T :=
  ⟨hi ▸ h.in_eq, ho ▸ h.out_eq, hc ▸ h.cnt, hc ▸ h.le, h.pre, hb ▸ h.slot⟩

/-- The critical section of `queue_append` keeps the ring-buffer invariant and
writes `c`. -/
theorem QInv_append_body {q q1 : queue_s} {P T : List Char} {c : Char}
    (h : QInv q P T) (hb : append_body q c = .done q1) : QInv q1 (P ++ [c]) T := by
  obtain ⟨hi, hc, rfl⟩ := append_body_done hb
  obtain ⟨h1, h2, h3, h4, h5, h6⟩ := h
  rw [MAX_eq] at *
  refine ⟨?_, h2, ?_, ?_, ?_, ?_⟩
  · simp only [List.length_append, List.length_singleton, MAX_eq]; omega
  · simp only [List.length_append, List.length_singleton]; omega
  · show q.count + 1 ≤ 10
    omega
  · rw [List.take_append_of_le_length (by omega)]
    exact h5
  · intro k hk1 hk2
    simp only [List.length_append, List.length_singleton] at hk2
    by_cases hk : k < P.length
    · rw [List.getElem?_append_left hk, h6 k hk1 hk]
      have : k % 10 ≠ q.in_ := by omega
      simp [this, MAX_eq]
    · have hk3 : k = P.length := by omega
      subst hk3
      simp [h1, MAX_eq]

/-- The critical section of `queue_pop` keeps the ring-buffer invariant and
reads the value it returns. -/
theorem QInv_pop_body {q : queue_s} {r : Char × queue_s} {P T : List Char}
    (h : QInv q P T) (hb : pop_body q = .done r) : QInv r.2 P (T ++ [r.1]) := by
  obtain ⟨ho, hc, hv, hr, _⟩ := pop_body_done hb
  obtain ⟨h1, h2, h3, h4, h5, h6⟩ := h
  rw [hr, hv]
  rw [MAX_eq] at *
  have hT : T.length < P.length := by omega
  have hs := h6 T.length (le_refl _) hT
  rw [← h2] at hs
  refine ⟨h1, ?_, ?_, ?_, ?_, ?_⟩
  · simp only [List.length_append, List.length_singleton, MAX_eq]; omega
  · simp only [List.length_append, List.length_singleton]; omega
  · show q.count - 1 ≤ 10
    omega
  · simp only [List.length_append, List.length_singleton]
    rw [List.take_succ, hs, ← h5]
    rfl
  · intro k hk1 hk2
    simp only [List.length_append, List.length_singleton] at hk1
    exact h6 k (by omega) hk2

/-- Under the ring-buffer invariant the critical section of `queue_append`
runs to its end when `count < MAX`. -/
theorem QInv_append_body_runs {q : queue_s} {P T : List Char} (c : Char)
    (h : QInv q P T) (hc : q.count < MAX) : ∃ q1, append_body q c = .done q1 := by
  have hi : q.in_ < MAX := by rw [h.in_eq, MAX_eq]; omega
  unfold append_body
  simp [hi, hc]

/-- Under the ring-buffer invariant the critical section of `queue_pop` runs
to its end when `count > 0`: both assertions hold. -/
theorem QInv_pop_body_runs {q : queue_s} {P T : List Char}
    (h : QInv q P T) (hc : 0 < q.count) : ∃ r, pop_body q = .done r := by
  obtain ⟨h1, h2, h3, h4, h5, h6⟩ := h
  rw [MAX_eq] at *
  have ho : q.out < MAX := by rw [h2, MAX_eq]; omega
  have h7 : (q.out + 1) % SIZE_MOD = q.out + 1 := by
    apply Nat.mod_eq_of_lt; rw [MAX_eq] at ho; rw [SIZE_MOD_eq]; omega
  have h8 : q.count - 1 =
      ((q.in_ + MAX) % SIZE_MOD + SIZE_MOD - (q.out + 1) % MAX) % SIZE_MOD % MAX := by
    rw [MAX_eq, SIZE_MOD_eq]; omega
  unfold pop_body
  simp [ho, hc, h7, ← h8]

/-! ## Whole calls, one after the other -/

/-- The invariant between whole calls holds after `queue_init`, for the
values it left in the semaphores. -/
theorem SeqInv_init_any {sys : SysCalls} {q0 q : queue_s} (h : queue_init sys q0 = some q) :
    SeqInv q.empty q.full q [] [] := by
  obtain ⟨hc, _, _, _, _, hm, _⟩ := queue_init_done h
  exact ⟨QInv_init h, by rw [hc]; rfl, by rw [hc]; omega, hm⟩

/-- The invariant between whole calls holds after a `queue_init` that
created the semaphores. -/
theorem SeqInv_init {sys : SysCalls} {q0 q : queue_s} (h : queue_init sys q0 = some q)
    (hfresh : sys.fresh = true) : SeqInv MAX 0 q [] [] := by
  obtain ⟨_, _, _, he, hf, _, _⟩ := queue_init_done h
  obtain ⟨e1, e2⟩ := sem_open_fresh hfresh
  have h0 := SeqInv_init_any h
  rw [he, hf, e1, e2] at h0
  exact h0

/-- A completed `queue_append` keeps the invariant between whole calls. -/
theorem SeqInv_append {e0 f0 : Nat} {q q1 : queue_s} {P T : List Char} {c : Char}
    (h : SeqInv e0 f0 q P T) (hr : queue_append q c = .done q1) :
    SeqInv e0 f0 q1 (P ++ [c]) T := by
  unfold queue_append at hr
  obtain ⟨a1, h1, hr⟩ := bind_done hr
  obtain ⟨a2, h2, hr⟩ := bind_done hr
  obtain ⟨a3, h3, hr⟩ := bind_done hr
  obtain ⟨a4, h4, hr⟩ := bind_done hr
  obtain ⟨he, rfl⟩ := sem_wait_empty_done h1
  obtain ⟨_, rfl⟩ := pthread_mutex_lock_done h2
  have hq : QInv a3 (P ++ [c]) T := by
    refine QInv_append_body ?_ h3
    exact QInv_congr h.ring rfl rfl rfl rfl
  obtain ⟨_, _, rfl⟩ := append_body_done h3
  obtain ⟨_, rfl⟩ := pthread_mutex_unlock_done h4
  cases hr
  refine ⟨QInv_congr hq rfl rfl rfl rfl, ?_, ?_, rfl⟩
  · have := h.hE
    simp only [sem_post_full]
    omega
  · have := h.hF
    simp only [sem_post_full]
    omega

/-- A completed `queue_pop` keeps the invariant between whole calls. -/
theorem SeqInv_pop {e0 f0 : Nat} {q : queue_s} {r : Char × queue_s} {P T : List Char}
    (h : SeqInv e0 f0 q P T) (hr : queue_pop q = .done r) :
    SeqInv e0 f0 r.2 P (T ++ [r.1]) := by
  unfold queue_pop at hr
  obtain ⟨a1, h1, hr⟩ := bind_done hr
  obtain ⟨a2, h2, hr⟩ := bind_done hr
  obtain ⟨a3, h3, hr⟩ := bind_done hr
  obtain ⟨a4, h4, hr⟩ := bind_done hr
  obtain ⟨hf, rfl⟩ := sem_wait_full_done h1
  obtain ⟨_, rfl⟩ := pthread_mutex_lock_done h2
  have hq : QInv a3.2 P (T ++ [a3.1]) := by
    refine QInv_pop_body ?_ h3
    exact QInv_congr h.ring rfl rfl rfl rfl
  obtain ⟨_, hc, _, h3, _⟩ := pop_body_done h3
  obtain ⟨_, rfl⟩ := pthread_mutex_unlock_done h4
  cases hr
  refine ⟨QInv_congr hq rfl rfl rfl rfl, ?_, ?_, rfl⟩
  · have := h.hE
    simp only [sem_post_empty, h3] at hc ⊢
    omega
  · have := h.hF
    simp only [sem_post_empty, h3] at hc ⊢
    omega

/-- Between whole calls `queue_append` completes exactly when the empty
semaphore is positive and `count < MAX`. -/
theorem queue_append_done_iff {e0 f0 : Nat} {q : queue_s} {P T : List Char} (c : Char)
    (h : SeqInv e0 f0 q P T) :
    (queue_append q c).isDone = true ↔ 0 < q.empty ∧ q.count < MAX := by
  constructor
  · intro hd
    obtain ⟨q1, hq1⟩ := (by cases hx : queue_append q c <;> simp [hx, Outcome.isDone] at hd ⊢ :
      ∃ q1, queue_append q c = .done q1)
    unfold queue_append at hq1
    obtain ⟨a1, h1, hr⟩ := bind_done hq1
    obtain ⟨a2, h2, hr⟩ := bind_done hr
    obtain ⟨a3, h3, hr⟩ := bind_done hr
    obtain ⟨he, rfl⟩ := sem_wait_empty_done h1
    obtain ⟨_, rfl⟩ := pthread_mutex_lock_done h2
    obtain ⟨_, hc, _⟩ := append_body_done h3
    exact ⟨he, hc⟩
  · rintro ⟨he, hc⟩
    obtain ⟨q1, h1⟩ := QInv_append_body_runs c
      (QInv_congr h.ring rfl rfl rfl rfl :
        QInv { q with empty := q.empty - 1, mutex := true } P T) hc
    simp [queue_append, sem_wait_empty, pthread_mutex_lock, he, h.hM, Outcome.bind, h1]
    obtain ⟨_, _, rfl⟩ := append_body_done h1
    simp [pthread_mutex_unlock, Outcome.isDone]

/-- Between whole calls, the semaphores created by `queue_init`,
`queue_append` completes exactly when `count < MAX`. -/
theorem SeqInv_append_done_iff {q : queue_s} {P T : List Char} (c : Char)
    (h : SeqInv MAX 0 q P T) : (queue_append q c).isDone = true ↔ q.count < MAX := by
  have hE := h.hE
  rw [queue_append_done_iff c h]
  constructor
  · exact fun hd => hd.2
  · exact fun hc => ⟨by omega, hc⟩

/-- Between whole calls `queue_pop` completes exactly when the full semaphore
is positive and `count > 0`. -/
theorem queue_pop_done_iff {e0 f0 : Nat} {q : queue_s} {P T : List Char}
    (h : SeqInv e0 f0 q P T) :
    (queue_pop q).isDone = true ↔ 0 < q.full ∧ 0 < q.count := by
  constructor
  · intro hd
    obtain ⟨r, hr⟩ := (by cases hx : queue_pop q <;> simp [hx, Outcome.isDone] at hd ⊢ :
      ∃ r, queue_pop q = .done r)
    unfold queue_pop at hr
    obtain ⟨a1, h1, hr⟩ := bind_done hr
    obtain ⟨a2, h2, hr⟩ := bind_done hr
    obtain ⟨a3, h3, hr⟩ := bind_done hr
    obtain ⟨hf, rfl⟩ := sem_wait_full_done h1
    obtain ⟨_, rfl⟩ := pthread_mutex_lock_done h2
    obtain ⟨_, hc, _⟩ := pop_body_done h3
    exact ⟨hf, hc⟩
  · rintro ⟨hf, hc⟩
    obtain ⟨r, h1⟩ := QInv_pop_body_runs
      (QInv_congr h.ring rfl rfl rfl rfl :
        QInv { q with full := q.full - 1, mutex := true } P T) hc
    simp [queue_pop, sem_wait_full, pthread_mutex_lock, hf, h.hM, Outcome.bind, h1]
    obtain ⟨_, _, _, h2, _⟩ := pop_body_done h1
    simp [pthread_mutex_unlock, Outcome.isDone, h2]

/-- Between whole calls, the semaphores created by `queue_init`, `queue_pop`
completes exactly when `count > 0`. -/
theorem SeqInv_pop_done_iff {q : queue_s} {P T : List Char}
    (h : SeqInv MAX 0 q P T) : (queue_pop q).isDone = true ↔ 0 < q.count := by
  have hF := h.hF
  rw [queue_pop_done_iff h]
  constructor
  · exact fun hd => hd.2
  · exact fun hc => ⟨by omega, hc⟩

/-- Characterisation of `Outcome.isDone`. -/
theorem isDone_iff {α : Type} {x : Outcome α} : x.isDone = true ↔ ∃ a, x = .done a := by
  cases x <;> simp [Outcome.isDone]

/-- Between whole calls `queue_append` on a full queue blocks in `sem_wait`. -/
theorem SeqInv_append_blocked {q : queue_s} {P T : List Char} (c : Char)
    (h : SeqInv MAX 0 q P T) (hc : q.count = MAX) : queue_append q c = .blocked := by
  have hE := h.hE
  have he : ¬ 0 < q.empty := by omega
  simp [queue_append, sem_wait_empty, he, Outcome.bind]

/-- Between whole calls `queue_pop` on an empty queue blocks in `sem_wait`. -/
theorem SeqInv_pop_blocked {q : queue_s} {P T : List Char}
    (h : SeqInv MAX 0 q P T) (hc : q.count = 0) : queue_pop q = .blocked := by
  have hF := h.hF
  have hf : ¬ 0 < q.full := by omega
  simp [queue_pop, sem_wait_full, hf, Outcome.bind]

/-- A guarded sequence of calls runs to its end, keeps the invariant and
returns one character per pop. -/
theorem run_spec (ops : List Op) : ∀ (q : queue_s) (P T : List Char),
    SeqInv MAX 0 q P T → guarded q ops = true →
    ∃ res q1, run q ops = .done (res, q1) ∧
      SeqInv MAX 0 q1 (P ++ appended ops) (T ++ res) ∧ res.length = pops ops := by
  induction ops with
  | nil =>
    intro q P T h _
    exact ⟨[], q, rfl, by simpa [appended] using h, rfl⟩
  | cons op r ih =>
    intro q P T h hg
    cases op with
    | append c =>
      simp only [guarded, Bool.and_eq_true, decide_eq_true_eq] at hg
      obtain ⟨q1, h1⟩ := isDone_iff.mp ((SeqInv_append_done_iff c h).mpr hg.1)
      have hg2 := hg.2
      rw [h1] at hg2
      obtain ⟨res, q2, h2, h3, h4⟩ := ih q1 (P ++ [c]) T (SeqInv_append h h1) hg2
      refine ⟨res, q2, ?_, ?_, ?_⟩
      · simp [run, h1, Outcome.bind, h2]
      · simpa [appended] using h3
      · simpa [pops] using h4
    | pop =>
      simp only [guarded, Bool.and_eq_true, decide_eq_true_eq] at hg
      obtain ⟨p, h1⟩ := isDone_iff.mp ((SeqInv_pop_done_iff h).mpr hg.1)
      have hg2 := hg.2
      rw [h1] at hg2
      obtain ⟨res, q2, h2, h3, h4⟩ := ih p.2 P (T ++ [p.1]) (SeqInv_pop h h1) hg2
      refine ⟨p.1 :: res, q2, ?_, ?_, ?_⟩
      · simp [run, h1, Outcome.bind, h2]
      · simpa [appended] using h3
      · simpa [pops] using h4

/-- A sequence of calls that has run to its end has kept the invariant and
returned one character per pop. -/
theorem run_done_spec {e0 f0 : Nat} (ops : List Op) :
    ∀ (q : queue_s) (P T : List Char) (r : List Char × queue_s),
    SeqInv e0 f0 q P T → run q ops = .done r →
    SeqInv e0 f0 r.2 (P ++ appended ops) (T ++ r.1) ∧ r.1.length = pops ops := by
  induction ops with
  | nil =>
    intro q P T r h hr
    cases hr
    exact ⟨by simpa [appended] using h, rfl⟩
  | cons op rest ih =>
    intro q P T r h hr
    cases op with
    | append c =>
      obtain ⟨q1, h1, hr⟩ := bind_done hr
      obtain ⟨h2, h3⟩ := ih q1 (P ++ [c]) T r (SeqInv_append h h1) hr
      exact ⟨by simpa [appended] using h2, by simpa [pops] using h3⟩
    | pop =>
      obtain ⟨p, h1, hr⟩ := bind_done hr
      obtain ⟨r2, h2, hr⟩ := bind_done hr
      cases hr
      obtain ⟨h3, h4⟩ := ih p.2 P (T ++ [p.1]) r2 (SeqInv_pop h h1) h2
      exact ⟨by simpa [appended] using h3, by simpa [pops] using h4⟩

/-- C1: FIFO.  Started from the state `queue_init` produces, for a sequence
of calls in which each pop is issued when `count > 0` and each append when
`count < MAX`: whenever the sequence has run to its end, the characters
returned by its pops, in order, are the first as many of the characters
passed to its appends, one per pop; and it does run to its end when
`queue_init` created the semaphores. -/
theorem fifo_preservation (sys : SysCalls) (q0 q : queue_s) (ops : List Op)
    (hinit : queue_init sys q0 = some q) (hg : guarded q ops = true) :
    (∀ res q1, run q ops = .done (res, q1) →
      res.length = pops ops ∧ res = (appended ops).take res.length) ∧
    (sys.fresh = true → ∃ res q1, run q ops = .done (res, q1)) := by
  constructor
  · intro res q1 hr
    obtain ⟨h2, h3⟩ := run_done_spec ops q [] [] (res, q1) (SeqInv_init_any hinit) hr
    exact ⟨h3, by simpa using h2.ring.pre⟩
  · intro hfresh
    obtain ⟨res, q1, h1, _, _⟩ := run_spec ops q [] [] (SeqInv_init hinit hfresh) hg
    exact ⟨res, q1, h1⟩

/-- Instance of `fifo_preservation`: sixteen appends and sixteen pops, `in`
and `out` passing `MAX`. -/
theorem fifo_preservation_witness :
    queue_init SysCalls.allOk stale_queue = some fresh_queue ∧
    guarded fresh_queue wrap_ops = true ∧
    ((∀ res q1, run fresh_queue wrap_ops = .done (res, q1) →
      res.length = pops wrap_ops ∧ res = (appended wrap_ops).take res.length) ∧
    (SysCalls.allOk.fresh = true → ∃ res q1, run fresh_queue wrap_ops = .done (res, q1))) :=
  ⟨rfl, by decide, fifo_preservation SysCalls.allOk stale_queue fresh_queue wrap_ops rfl
    (by decide)⟩

/-- The run of `wrap_ops` returns the sixteen characters in order and leaves
`in` and `out` at `16 mod MAX`. -/
theorem run_wrap_ops :
    (run fresh_queue wrap_ops).get?.map
        (fun r => (String.mk r.1, r.2.in_, r.2.out, r.2.count)) =
      some ("abcdefghijklmnop", 6, 6, 0) := by
  rfl

/-! ## The thread model -/

/-- Replacing one thread changes a sum over the threads by that thread's
share. -/
theorem sum_map_set {M : Type} [AddCommMonoid M] (f : Thread → M) :
    ∀ (l : List Thread) (i : Nat) (t a : Thread), l[i]? = some t →
      ((l.set i a).map f).sum + f t = (l.map f).sum + f a := by
  intro l
  induction l with
  | nil => intro i t a h; simp at h
  | cons x xs ih =>
    intro i t a h
    cases i with
    | zero =>
      simp only [List.getElem?_cons_zero, Option.some.injEq] at h
      subst h
      simp only [List.set_cons_zero, List.map_cons, List.sum_cons]
      abel
    | succ j =>
      simp only [List.getElem?_cons_succ] at h
      simp only [List.set_cons_succ, List.map_cons, List.sum_cons]
      rw [add_assoc, ih j t a h, add_assoc]

/-- Effect of one step of a thread on the semaphore, mutex and character
accounts and on the ring-buffer invariant. -/
theorem stepThread_spec {q q1 : queue_s} {t t1 : Thread}
    (h : stepThread q t = .done (q1, t1)) :
    q1.empty + heldEmpty t1 + q1.count = q.empty + heldEmpty t + q.count ∧
    q1.full + pendingFull t1 + q.count = q.full + pendingFull t + q1.count ∧
    holdsMutex t1 + (if q.mutex then 1 else 0) = holdsMutex t + (if q1.mutex then 1 else 0) ∧
    pushedBy t1 = pushedBy t + (pushEv t : Multiset Char) ∧
    takenBy t1 = takenBy t + (takeEv q t : Multiset Char) ∧
    ∀ P T, QInv q P T → QInv q1 (P ++ pushEv t) (T ++ takeEv q t) := by
  unfold stepThread at h
  split at h
  · cases h
  · rename_i c rest hprog
    split at h <;> rename_i hpc
    · obtain ⟨a, ha, h⟩ := bind_done h
      obtain ⟨hpos, rfl⟩ := sem_wait_empty_done ha
      cases h
      refine ⟨?_, ?_, ?_, ?_, ?_, ?_⟩
      · simp [heldEmpty, hprog, hpc]; omega
      · simp [pendingFull, hprog, hpc]
      · simp [holdsMutex, hprog, hpc]
      · simp [pushedBy, pushEv, hprog, hpc]
      · simp [takenBy, takeEv, hprog, hpc]
      · intro P T hq
        simp only [pushEv, takeEv, hprog, hpc, List.append_nil]
        exact QInv_congr hq rfl rfl rfl rfl
    · obtain ⟨a, ha, h⟩ := bind_done h
      obtain ⟨hm, rfl⟩ := pthread_mutex_lock_done ha
      cases h
      refine ⟨?_, ?_, ?_, ?_, ?_, ?_⟩
      · simp [heldEmpty, hprog, hpc]
      · simp [pendingFull, hprog, hpc]
      · simp [holdsMutex, hprog, hpc, hm]
      · simp [pushedBy, pushEv, hprog, hpc]
      · simp [takenBy, takeEv, hprog, hpc]
      · intro P T hq
        simp only [pushEv, takeEv, hprog, hpc, List.append_nil]
        exact QInv_congr hq rfl rfl rfl rfl
    · obtain ⟨a, ha, h⟩ := bind_done h
      have hq := fun P T (hq : QInv q P T) => QInv_append_body hq ha
      obtain ⟨_, _, rfl⟩ := append_body_done ha
      cases h
      refine ⟨?_, ?_, ?_, ?_, ?_, ?_⟩
      · simp [heldEmpty, hprog, hpc]; omega
      · simp [pendingFull, hprog, hpc]; omega
      · simp [holdsMutex, hprog, hpc]
      · simp [pushedBy, pushEv, hprog, hpc]
      · simp [takenBy, takeEv, hprog, hpc]
      · intro P T hP
        simpa [pushEv, takeEv, hprog, hpc] using hq P T hP
    · obtain ⟨a, ha, h⟩ := bind_done h
      obtain ⟨hm, rfl⟩ := pthread_mutex_unlock_done ha
      cases h
      refine ⟨?_, ?_, ?_, ?_, ?_, ?_⟩
      · simp [heldEmpty, hprog, hpc]
      · simp [pendingFull, hprog, hpc]
      · simp [holdsMutex, hprog, hpc, hm]
      · simp [pushedBy, pushEv, hprog, hpc]
      · simp [takenBy, takeEv, hprog, hpc]
      · intro P T hq
        simp only [pushEv, takeEv, hprog, hpc, List.append_nil]
        exact QInv_congr hq rfl rfl rfl rfl
    · cases h
      refine ⟨?_, ?_, ?_, ?_, ?_, ?_⟩
      · simp [heldEmpty, hprog, hpc, sem_post_full]
      · simp [pendingFull, hprog, hpc, sem_post_full]
      · simp [holdsMutex, hprog, hpc, sem_post_full]
      · simp [pushedBy, pushEv, hprog, hpc]
        rw [← Multiset.coe_singleton, Multiset.coe_add]
      · simp [takenBy, takeEv, hprog, hpc]
      · intro P T hq
        simp only [pushEv, takeEv, hprog, hpc, List.append_nil]
        exact QInv_congr hq rfl rfl rfl rfl
  · rename_i rest hprog
    split at h <;> rename_i hpc
    · obtain ⟨a, ha, h⟩ := bind_done h
      obtain ⟨hpos, rfl⟩ := sem_wait_full_done ha
      cases h
      refine ⟨?_, ?_, ?_, ?_, ?_, ?_⟩
      · simp [heldEmpty, hprog, hpc]
      · simp [pendingFull, hprog, hpc]; omega
      · simp [holdsMutex, hprog, hpc]
      · simp [pushedBy, pushEv, hprog, hpc]
      · simp [takenBy, takeEv, hprog, hpc]
      · intro P T hq
        simp only [pushEv, takeEv, hprog, hpc, List.append_nil]
        exact QInv_congr hq rfl rfl rfl rfl
    · obtain ⟨a, ha, h⟩ := bind_done h
      obtain ⟨hm, rfl⟩ := pthread_mutex_lock_done ha
      cases h
      refine ⟨?_, ?_, ?_, ?_, ?_, ?_⟩
      · simp [heldEmpty, hprog, hpc]
      · simp [pendingFull, hprog, hpc]
      · simp [holdsMutex, hprog, hpc, hm]
      · simp [pushedBy, pushEv, hprog, hpc]
      · simp [takenBy, takeEv, hprog, hpc]
      · intro P T hq
        simp only [pushEv, takeEv, hprog, hpc, List.append_nil]
        exact QInv_congr hq rfl rfl rfl rfl
    · obtain ⟨a, ha, h⟩ := bind_done h
      have hq := fun P T (hq : QInv q P T) => QInv_pop_body hq ha
      obtain ⟨_, hc, hv, hr, _⟩ := pop_body_done ha
      cases h
      rw [hr]
      rw [hr, hv] at hq
      refine ⟨?_, ?_, ?_, ?_, ?_, ?_⟩
      · simp [heldEmpty, hprog, hpc]; omega
      · simp [pendingFull, hprog, hpc]; omega
      · simp [holdsMutex, hprog, hpc]
      · simp [pushedBy, pushEv, hprog, hpc]
      · simp [takenBy, takeEv, hprog, hpc, hv]
      · intro P T hP
        simpa [pushEv, takeEv, hprog, hpc] using hq P T hP
    · obtain ⟨a, ha, h⟩ := bind_done h
      obtain ⟨hm, rfl⟩ := pthread_mutex_unlock_done ha
      cases h
      refine ⟨?_, ?_, ?_, ?_, ?_, ?_⟩
      · simp [heldEmpty, hprog, hpc]
      · simp [pendingFull, hprog, hpc]
      · simp [holdsMutex, hprog, hpc, hm]
      · simp [pushedBy, pushEv, hprog, hpc]
      · simp [takenBy, takeEv, hprog, hpc]
      · intro P T hq
        simp only [pushEv, takeEv, hprog, hpc, List.append_nil]
        exact QInv_congr hq rfl rfl rfl rfl
    · cases h
      refine ⟨?_, ?_, ?_, ?_, ?_, ?_⟩
      · simp [heldEmpty, hprog, hpc, sem_post_empty]
      · simp [pendingFull, hprog, hpc, sem_post_empty]
      · simp [holdsMutex, hprog, hpc, sem_post_empty]
      · simp [pushedBy, pushEv, hprog, hpc]
      · simp [takenBy, takeEv, hprog, hpc]
        rw [← Multiset.coe_singleton, Multiset.coe_add]
      · intro P T hq
        simp only [pushEv, takeEv, hprog, hpc, List.append_nil]
        exact QInv_congr hq rfl rfl rfl rfl

/-- A completed step is a completed step of the thread named. -/
theorem step_done {s s1 : State} {i : Nat} (h : step s i = .done s1) :
    ∃ t r, s.threads[i]? = some t ∧ stepThread s.q t = .done r ∧
      s1 = { q := r.1, threads := s.threads.set i r.2 } := by
  unfold step at h
  split at h
  · cases h
  · rename_i t ht
    obtain ⟨r, hr, h⟩ := bind_done h
    cases h
    exact ⟨t, r, ht, hr, rfl⟩

/-- A step keeps the invariant of the thread model. -/
theorem Inv_step {e0 f0 : Nat} {s s1 : State} {i : Nat} {t : Thread} {P T : List Char}
    (hI : Inv e0 f0 s P T) (ht : s.threads[i]? = some t) (h : step s i = .done s1) :
    Inv e0 f0 s1 (P ++ pushEv t) (T ++ takeEv s.q t) := by
  obtain ⟨t0, r, ht0, hr, rfl⟩ := step_done h
  rw [ht] at ht0
  cases ht0
  obtain ⟨q1, t1⟩ := r
  obtain ⟨hE, hF, hM, hP, hT, hQ⟩ := stepThread_spec hr
  have sE := sum_map_set heldEmpty s.threads i t t1 ht
  have sF := sum_map_set pendingFull s.threads i t t1 ht
  have sM := sum_map_set holdsMutex s.threads i t t1 ht
  have sP := sum_map_set pushedBy s.threads i t t1 ht
  have sT := sum_map_set takenBy s.threads i t t1 ht
  obtain ⟨iQ, iE, iF, iM, iP, iT⟩ := hI
  refine ⟨hQ P T iQ, ?_, ?_, ?_, ?_, ?_⟩
  · show q1.empty + ((s.threads.set i t1).map heldEmpty).sum + q1.count = e0
    omega
  · show q1.full + ((s.threads.set i t1).map pendingFull).sum = q1.count + f0
    omega
  · show ((s.threads.set i t1).map holdsMutex).sum = if q1.mutex then 1 else 0
    omega
  · show ((s.threads.set i t1).map pushedBy).sum = _
    rw [hP, iP, ← add_assoc, add_right_comm] at sP
    rw [← Multiset.coe_add]
    exact add_right_cancel sP
  · show ((s.threads.set i t1).map takenBy).sum = _
    rw [hT, iT, ← add_assoc, add_right_comm] at sT
    rw [← Multiset.coe_add]
    exact add_right_cancel sT

/-- A sum over idle threads of a quantity that idle threads do not have is
zero. -/
theorem sum_map_start {M : Type} [AddCommMonoid M] (f : Thread → M)
    (hf : ∀ t, t.pc = .idle → f t = 0) (l : List Thread) (hl : ∀ t ∈ l, t.pc = .idle) :
    (l.map f).sum = 0 := by
  induction l with
  | nil => rfl
  | cons x xs ih =>
    simp only [List.map_cons, List.sum_cons]
    rw [hf x (hl x (List.mem_cons_self _ _)), ih (fun t ht => hl t (List.mem_cons_of_mem _ ht)),
      add_zero]

/-- An idle thread holds no unit of the empty semaphore. -/
theorem heldEmpty_idle (t : Thread) (h : t.pc = .idle) : heldEmpty t = 0 := by
  simp [heldEmpty, h]

/-- An idle thread has no item pending on the full semaphore. -/
theorem pendingFull_idle (t : Thread) (h : t.pc = .idle) : pendingFull t = 0 := by
  simp [pendingFull, h]

/-- An idle thread does not hold the mutex. -/
theorem holdsMutex_idle (t : Thread) (h : t.pc = .idle) : holdsMutex t = 0 := by
  simp [holdsMutex, h]

/-- An idle thread has written what its returned appends were passed. -/
theorem pushedBy_idle (t : Thread) (h : t.pc = .idle) : pushedBy t = (t.sent : Multiset Char) := by
  simp [pushedBy, h]

/-- An idle thread has read what its returned pops returned. -/
theorem takenBy_idle (t : Thread) (h : t.pc = .idle) : takenBy t = (t.got : Multiset Char) := by
  simp [takenBy, h]

/-- Sums over the threads of two quantities that agree on each thread agree. -/
theorem sum_map_congr {M : Type} [AddCommMonoid M] (f g : Thread → M) (l : List Thread)
    (h : ∀ t ∈ l, f t = g t) : (l.map f).sum = (l.map g).sum := by
  induction l with
  | nil => rfl
  | cons x xs ih =>
    simp only [List.map_cons, List.sum_cons]
    rw [h x (List.mem_cons_self _ _), ih (fun t ht => h t (List.mem_cons_of_mem _ ht))]

/-- The invariant of the thread model holds when the threads are started on an
initialised queue. -/
theorem Inv_start {sys : SysCalls} {q0 q : queue_s} (progs : List (List Op))
    (h : queue_init sys q0 = some q) : Inv q.empty q.full (startState q progs) [] [] := by
  obtain ⟨hc, _, _, _, _, hm, _⟩ := queue_init_done h
  have hidle : ∀ t ∈ (startState q progs).threads, t.pc = .idle := by
    intro t ht
    simp only [startState, List.mem_map] at ht
    obtain ⟨p, _, rfl⟩ := ht
    rfl
  have hnil : ∀ t ∈ (startState q progs).threads, t.sent = [] ∧ t.got = [] := by
    intro t ht
    simp only [startState, List.mem_map] at ht
    obtain ⟨p, _, rfl⟩ := ht
    exact ⟨rfl, rfl⟩
  refine ⟨QInv_init h, ?_, ?_, ?_, ?_, ?_⟩
  · rw [sum_map_start heldEmpty heldEmpty_idle _ hidle]
    show q.empty + 0 + q.count = q.empty
    omega
  · rw [sum_map_start pendingFull pendingFull_idle _ hidle]
    show q.full + 0 = q.count + q.full
    omega
  · rw [sum_map_start holdsMutex holdsMutex_idle _ hidle]
    show 0 = if q.mutex then 1 else 0
    simp [hm]
  · rw [sum_map_congr pushedBy (fun _ => 0) _
      (fun t ht => by rw [pushedBy_idle t (hidle t ht), (hnil t ht).1]; rfl)]
    simp
  · rw [sum_map_congr takenBy (fun _ => 0) _
      (fun t ht => by rw [takenBy_idle t (hidle t ht), (hnil t ht).2]; rfl)]
    simp

/-- A schedule keeps the invariant of the thread model. -/
theorem Inv_exec {e0 f0 : Nat} (sched : List Nat) : ∀ (s s1 : State) (P T : List Char),
    Inv e0 f0 s P T → exec s sched = .done s1 → ∃ P1 T1, Inv e0 f0 s1 P1 T1 := by
  induction sched with
  | nil =>
    intro s s1 P T hI h
    cases h
    exact ⟨P, T, hI⟩
  | cons i rest ih =>
    intro s s1 P T hI h
    obtain ⟨s2, h2, h⟩ := bind_done h
    obtain ⟨t, r, ht, _, _⟩ := step_done h2
    exact ih s2 s1 _ _ (Inv_step hI ht h2) h

/-- Every reachable state satisfies the invariant of the thread model. -/
theorem Inv_reach {sys : SysCalls} {q0 q : queue_s} {progs : List (List Op)}
    {sched : List Nat} {s : State} (h : queue_init sys q0 = some q)
    (hx : exec (startState q progs) sched = .done s) : ∃ P T, Inv q.empty q.full s P T :=
  Inv_exec sched _ _ [] [] (Inv_start progs h) hx

/-- The invariant of the thread model when `queue_init` created the
semaphores. -/
theorem Inv_start_created {sys : SysCalls} {q0 q : queue_s} (progs : List (List Op))
    (h : queue_init sys q0 = some q) (hfresh : sys.fresh = true) :
    Inv MAX 0 (startState q progs) [] [] := by
  obtain ⟨_, _, _, he, hf, _, _⟩ := queue_init_done h
  obtain ⟨e1, e2⟩ := sem_open_fresh hfresh
  have h0 := Inv_start progs h
  rw [he, hf, e1, e2] at h0
  exact h0

/-- Every state reachable after a `queue_init` that created the semaphores
satisfies the invariant with `MAX` and `0`. -/
theorem Inv_reach_created {sys : SysCalls} {q0 q : queue_s} {progs : List (List Op)}
    {sched : List Nat} {s : State} (h : queue_init sys q0 = some q)
    (hfresh : sys.fresh = true)
    (hx : exec (startState q progs) sched = .done s) : ∃ P T, Inv MAX 0 s P T :=
  Inv_exec sched _ _ [] [] (Inv_start_created progs h hfresh) hx

/-- In a quiescent state every thread is idle. -/
theorem quiescent_idle {s : State} (h : s.quiescent = true) : ∀ t ∈ s.threads, t.pc = .idle := by
  intro t ht
  simp only [State.quiescent, List.all_eq_true, decide_eq_true_eq] at h
  exact h t ht

/-- In a quiescent state the invariant between whole calls holds. -/
theorem Inv_quiescent {e0 f0 : Nat} {s : State} {P T : List Char} (hI : Inv e0 f0 s P T)
    (hq : s.quiescent = true) : SeqInv e0 f0 s.q P T := by
  have hidle := quiescent_idle hq
  obtain ⟨iQ, iE, iF, iM, _, _⟩ := hI
  rw [sum_map_start heldEmpty heldEmpty_idle _ hidle] at iE
  rw [sum_map_start pendingFull pendingFull_idle _ hidle] at iF
  rw [sum_map_start holdsMutex holdsMutex_idle _ hidle] at iM
  refine ⟨iQ, by omega, by omega, ?_⟩
  cases hm : s.q.mutex
  · rfl
  · simp [hm] at iM

/-! ## Invariants of the reachable states -/

/-- C2: capacity bound.  In every state reached from `queue_init` by any
schedule of steps of any threads calling `queue_append` and `queue_pop`,
`0 <= count <= MAX`. -/
theorem capacity_bound (sys : SysCalls) (q0 q : queue_s) (progs : List (List Op))
    (sched : List Nat) (s : State) (hinit : queue_init sys q0 = some q)
    (hx : exec (startState q progs) sched = .done s) :
    0 ≤ s.q.count ∧ s.q.count ≤ MAX := by
  obtain ⟨P, T, hI⟩ := Inv_reach hinit hx
  exact ⟨Nat.zero_le _, hI.ring.le⟩

/-- Instance of `capacity_bound`: `main` stopped while the producer holds the
mutex and the consumer waits for it. -/
theorem capacity_bound_witness :
    queue_init SysCalls.allOk stale_queue = some fresh_queue ∧
    exec (startState fresh_queue harness_progs) sched_mid = .done state_mid ∧
    0 ≤ state_mid.q.count ∧ state_mid.q.count ≤ MAX :=
  ⟨rfl, rfl,
    capacity_bound SysCalls.allOk stale_queue fresh_queue harness_progs sched_mid state_mid
      rfl rfl⟩

/-- The fields of `state_mid`. -/
theorem state_mid_fields :
    (state_mid.q.count, state_mid.q.in_, state_mid.q.out, state_mid.q.empty,
      state_mid.q.full, state_mid.q.mutex, state_mid.quiescent) =
      (2, 2, 0, 8, 0, true, false) := by
  decide

/-- C6, on the code: `queue_init` run while semaphores named `"full"` and
`"empty"` exist with the values `2` and `3` leads to states with no call in
progress in which the semaphores disagree with `count`: right after it
`count = 0`, `empty = 3` and `full = 2`; after three appends and one pop
have returned `count = 2`, `empty = 1` and `full = 4`. -/
theorem semaphores_disagree_with_count :
    queue_init SysCalls.stale stale_queue = some stale_init_queue ∧
    exec (startState stale_init_queue harness_progs) [] =
      .done (startState stale_init_queue harness_progs) ∧
    (startState stale_init_queue harness_progs).quiescent = true ∧
    ((startState stale_init_queue harness_progs).q.count, MAX,
      (startState stale_init_queue harness_progs).q.empty,
      (startState stale_init_queue harness_progs).q.full) = (0, 10, 3, 2) ∧
    exec (startState stale_init_queue harness_progs) sched_quiet = .done stale_quiet ∧
    stale_quiet.quiescent = true ∧
    (stale_quiet.q.count, stale_quiet.q.empty, stale_quiet.q.full) = (2, 1, 4) ∧
    stale_quiet.q.empty ≠ MAX - stale_quiet.q.count ∧
    stale_quiet.q.full ≠ stale_quiet.q.count := by
  refine ⟨rfl, rfl, by decide, by decide, rfl, by decide, by decide, by decide, by decide⟩

/-- In every reachable state in which no thread is between its `sem_wait` and
its `sem_post`, the empty semaphore holds `e0 - count` and the full
semaphore `count + f0`, where `e0` and `f0` are the values `queue_init` left
in them; when `queue_init` created them these are `MAX - count` and
`count`. -/
theorem semaphore_count_agreement_created (sys : SysCalls) (q0 q : queue_s)
    (progs : List (List Op)) (sched : List Nat) (s : State)
    (hinit : queue_init sys q0 = some q)
    (hx : exec (startState q progs) sched = .done s) (hq : s.quiescent = true) :
    (s.q.empty + s.q.count = q.empty ∧ s.q.full = s.q.count + q.full) ∧
    (sys.fresh = true → s.q.empty = MAX - s.q.count ∧ s.q.full = s.q.count) := by
  obtain ⟨P, T, hI⟩ := Inv_reach hinit hx
  have h := Inv_quiescent hI hq
  have hE := h.hE
  have hF := h.hF
  refine ⟨⟨hE, hF⟩, fun hfresh => ?_⟩
  obtain ⟨_, _, _, he, hf, _, _⟩ := queue_init_done hinit
  obtain ⟨e1, e2⟩ := sem_open_fresh hfresh
  rw [he, e1] at hE
  rw [hf, e2] at hF
  exact ⟨by omega, by omega⟩

/-- Instance of `semaphore_count_agreement_created`: `main` after three appends
and one pop have returned. -/
theorem semaphore_count_agreement_created_instance :
    queue_init SysCalls.allOk stale_queue = some fresh_queue ∧
    exec (startState fresh_queue harness_progs) sched_quiet = .done state_quiet ∧
    state_quiet.quiescent = true ∧
    state_quiet.q.empty = MAX - state_quiet.q.count ∧
    state_quiet.q.full = state_quiet.q.count :=
  ⟨rfl, rfl, by decide,
    (semaphore_count_agreement_created SysCalls.allOk stale_queue fresh_queue harness_progs
      sched_quiet state_quiet rfl rfl (by decide)).2 rfl⟩

/-- The fields of `state_quiet`; in `state_mid`, which is inside two calls,
the semaphores do not add up to `MAX`. -/
theorem state_quiet_fields :
    (state_quiet.q.count, state_quiet.q.empty, state_quiet.q.full) = (2, 8, 2) ∧
    state_mid.q.empty + state_mid.q.full = 8 := by
  decide

/-- C7: no loss, no duplication.  For any number of threads, each making any
calls of `queue_append` and `queue_pop`, under any schedule: in a reached
state with no call in progress and the queue empty, the characters returned
by all pops are, as a multiset, the characters passed to all appends. -/
theorem no_loss_no_duplication (sys : SysCalls) (q0 q : queue_s)
    (progs : List (List Op)) (sched : List Nat) (s : State)
    (hinit : queue_init sys q0 = some q)
    (hx : exec (startState q progs) sched = .done s) (hq : s.quiescent = true)
    (hc : s.q.count = 0) :
    (s.threads.map fun t => (t.got : Multiset Char)).sum =
      (s.threads.map fun t => (t.sent : Multiset Char)).sum := by
  obtain ⟨P, T, hI⟩ := Inv_reach hinit hx
  have hidle := quiescent_idle hq
  have hP := hI.hP
  have hT := hI.hT
  rw [sum_map_congr pushedBy (fun t => (t.sent : Multiset Char)) _
    (fun t ht => pushedBy_idle t (hidle t ht))] at hP
  rw [sum_map_congr takenBy (fun t => (t.got : Multiset Char)) _
    (fun t ht => takenBy_idle t (hidle t ht))] at hT
  have hlen : T.length = P.length := by
    have := hI.ring.cnt
    omega
  have hTP : T = P := by
    have := hI.ring.pre
    rw [hlen, List.take_length] at this
    exact this
  rw [hP, hT, hTP]

/-- Instance of `no_loss_no_duplication`: two producers and two consumers run
to their end. -/
theorem no_loss_no_duplication_witness :
    queue_init SysCalls.allOk stale_queue = some fresh_queue ∧
    exec (startState fresh_queue crowd_progs) sched_crowd = .done state_crowd ∧
    state_crowd.quiescent = true ∧ state_crowd.q.count = 0 ∧
    (state_crowd.threads.map fun t => (t.got : Multiset Char)).sum =
      (state_crowd.threads.map fun t => (t.sent : Multiset Char)).sum :=
  ⟨rfl, rfl, by decide, by decide,
    no_loss_no_duplication SysCalls.allOk stale_queue fresh_queue crowd_progs sched_crowd
      state_crowd rfl rfl (by decide) (by decide)⟩

/-- What the four threads of `state_crowd` were passed and returned. -/
theorem state_crowd_fields :
    state_crowd.threads.map (fun t => (t.sent, t.got)) =
      [(['a', 'b'], []), ([], ['a', 'b']), (['c'], []), ([], ['c'])] := by
  decide

/-! ## The relation between `count`, `in` and `out` -/

/-- Every state reached by completed calls satisfies the invariant between
whole calls. -/
theorem SeqReach_inv {q : queue_s} (h : SeqReach q) :
    ∃ e0 f0 P T, SeqInv e0 f0 q P T := by
  induction h with
  | init sys q0 q h => exact ⟨q.empty, q.full, [], [], SeqInv_init_any h⟩
  | append q q1 c _ h ih =>
    obtain ⟨e0, f0, P, T, hI⟩ := ih
    exact ⟨e0, f0, P ++ [c], T, SeqInv_append hI h⟩
  | pop q p _ h ih =>
    obtain ⟨e0, f0, P, T, hI⟩ := ih
    exact ⟨e0, f0, P, T ++ [p.1], SeqInv_pop hI h⟩

/-- The final queue of a completed run is reached by completed calls. -/
theorem SeqReach_run (ops : List Op) : ∀ (q : queue_s) (r : List Char × queue_s),
    SeqReach q → run q ops = .done r → SeqReach r.2 := by
  induction ops with
  | nil =>
    intro q r hq h
    cases h
    exact hq
  | cons op rest ih =>
    intro q r hq h
    cases op with
    | append c =>
      obtain ⟨q1, h1, h⟩ := bind_done h
      exact ih q1 r (SeqReach.append q q1 c hq h1) h
    | pop =>
      obtain ⟨p, h1, h⟩ := bind_done h
      obtain ⟨r2, h2, h⟩ := bind_done h
      cases h
      exact ih p.2 r2 (SeqReach.pop q p hq h1) h2

/-- C3 as stated fails: after the ten appends of `"HelloWorld"` and no pop,
a state reached by completed calls, `count` is `10` while `in` and `out` are
both `0`, so `(in - out + MAX) mod MAX` is `0`. -/
theorem count_index_fails_when_full :
    SeqReach full_queue ∧
    full_queue.count = 10 ∧ full_queue.in_ = 0 ∧ full_queue.out = 0 ∧
    ¬ ((full_queue.count : Int) = ((full_queue.in_ : Int) - full_queue.out + MAX) % MAX) := by
  refine ⟨?_, rfl, rfl, rfl, ?_⟩
  · exact SeqReach_run hello_appends fresh_queue ([], full_queue)
      (SeqReach.init SysCalls.allOk stale_queue fresh_queue rfl) rfl
  · decide

/-- C3, amended: in every state reached from `queue_init` by completed calls,
`count` and `(in - out + MAX) mod MAX` agree modulo `MAX`; they are equal
whenever `count < MAX`, and when `count = MAX` the indices coincide. -/
theorem count_index_invariant (q : queue_s) (h : SeqReach q) :
    (q.count : Int) % MAX = ((q.in_ : Int) - q.out + MAX) % MAX ∧
    (q.count < MAX → (q.count : Int) = ((q.in_ : Int) - q.out + MAX) % MAX) ∧
    (q.count = MAX → q.in_ = q.out) := by
  obtain ⟨e0, f0, P, T, hI⟩ := SeqReach_inv h
  obtain ⟨h1, h2, h3, h4, _, _⟩ := hI.ring
  rw [MAX_eq] at *
  refine ⟨?_, ?_, ?_⟩
  · push_cast
    omega
  · intro hc
    push_cast
    omega
  · intro hc
    omega

/-- Instance of `count_index_invariant`: the queue holding one character. -/
theorem count_index_invariant_witness :
    SeqReach one_queue_run ∧
    (one_queue_run.count : Int) % MAX =
      ((one_queue_run.in_ : Int) - one_queue_run.out + MAX) % MAX ∧
    (one_queue_run.count < MAX →
      (one_queue_run.count : Int) =
        ((one_queue_run.in_ : Int) - one_queue_run.out + MAX) % MAX) ∧
    (one_queue_run.count = MAX → one_queue_run.in_ = one_queue_run.out) :=
  ⟨SeqReach.append fresh_queue one_queue_run 'H'
      (SeqReach.init SysCalls.allOk stale_queue fresh_queue rfl) rfl,
    count_index_invariant one_queue_run
      (SeqReach.append fresh_queue one_queue_run 'H'
        (SeqReach.init SysCalls.allOk stale_queue fresh_queue rfl) rfl)⟩

/-! ## Blocking -/

/-- Appends that fit into the free slots all complete. -/
theorem run_appends (cs : List Char) : ∀ (q : queue_s) (P T : List Char),
    SeqInv MAX 0 q P T → q.count + cs.length ≤ MAX →
    ∃ qf, run q (cs.map Op.append) = .done ([], qf) ∧ SeqInv MAX 0 qf (P ++ cs) T ∧
      qf.count = q.count + cs.length := by
  induction cs with
  | nil =>
    intro q P T h _
    exact ⟨q, rfl, by simpa using h, rfl⟩
  | cons c rest ih =>
    intro q P T h hl
    simp only [List.length_cons] at hl
    obtain ⟨q1, h1⟩ := isDone_iff.mp ((SeqInv_append_done_iff c h).mpr (by omega))
    have hI := SeqInv_append h h1
    have hc : q1.count = q.count + 1 := by
      have h2 := h.ring.cnt
      have h3 := hI.ring.cnt
      simp only [List.length_append, List.length_singleton] at h3
      omega
    obtain ⟨qf, h4, h5, h6⟩ := ih q1 (P ++ [c]) T hI (by omega)
    refine ⟨qf, ?_, ?_, ?_⟩
    · simp [run, h1, Outcome.bind, h4]
    · simpa using h5
    · simp only [List.length_cons]
      omega

/-- C4, on the code: `queue_init` run while semaphores named `"full"` and
`"empty"` exist with the values `2` and `3` leaves a state with no call in
progress and `count = 0` in which `queue_pop` does not block: it passes
`sem_wait` and fails `assert(count > 0)`.  After three appends have returned,
`count = 3 < MAX` and a fourth append blocks, so `MAX` appends do not
complete. -/
theorem blocking_fails_on_existing_semaphores :
    queue_init SysCalls.stale stale_queue = some stale_init_queue ∧
    exec (startState stale_init_queue harness_progs) [] =
      .done (startState stale_init_queue harness_progs) ∧
    (startState stale_init_queue harness_progs).quiescent = true ∧
    stale_init_queue.count = 0 ∧ queue_pop stale_init_queue = .abort ∧
    run stale_init_queue ("Hel".toList.map Op.append) = .done ([], stale_three) ∧
    stale_three.count = 3 ∧ stale_three.count < MAX ∧
    queue_append stale_three 'l' = .blocked ∧
    run stale_init_queue hello_appends = .blocked := by
  refine ⟨rfl, rfl, by decide, rfl, rfl, rfl, rfl, by decide, rfl, rfl⟩

/-- Blocking, as enabledness, when `queue_init` created the semaphores.  In
every reachable state with no call in progress, `queue_pop` completes if
and only if `count > 0` and otherwise blocks, and `queue_append` completes
if and only if `count < MAX` and otherwise blocks.  From the initial state,
`MAX` appends and no pop complete; a further append then blocks, a pop
completes, and after it an append completes. -/
theorem blocking_correctness_created (sys : SysCalls) (q0 q : queue_s)
    (progs : List (List Op)) (sched : List Nat) (s : State)
    (hinit : queue_init sys q0 = some q) (hfresh : sys.fresh = true)
    (hx : exec (startState q progs) sched = .done s) (hq : s.quiescent = true) :
    ((queue_pop s.q).isDone = true ↔ 0 < s.q.count) ∧
    (s.q.count = 0 → queue_pop s.q = .blocked) ∧
    (∀ c, (queue_append s.q c).isDone = true ↔ s.q.count < MAX) ∧
    (∀ c, s.q.count = MAX → queue_append s.q c = .blocked) ∧
    ∀ cs : List Char, cs.length = MAX →
      ∃ qf, run q (cs.map Op.append) = .done ([], qf) ∧
        (∀ c, queue_append qf c = .blocked) ∧
        ∃ r, queue_pop qf = .done r ∧ ∀ c, (queue_append r.2 c).isDone = true := by
  obtain ⟨P, T, hI⟩ := Inv_reach_created hinit hfresh hx
  have h := Inv_quiescent hI hq
  refine ⟨SeqInv_pop_done_iff h, SeqInv_pop_blocked h, fun c => SeqInv_append_done_iff c h,
    fun c => SeqInv_append_blocked c h, ?_⟩
  intro cs hcs
  have h0 := SeqInv_init hinit hfresh
  have hc0 : q.count = 0 := (queue_init_done hinit).1
  obtain ⟨qf, h1, h2, h3⟩ := run_appends cs q [] [] h0 (by omega)
  have hfull : qf.count = MAX := by omega
  refine ⟨qf, h1, fun c => SeqInv_append_blocked c h2 hfull, ?_⟩
  obtain ⟨r, hr⟩ := isDone_iff.mp ((SeqInv_pop_done_iff h2).mpr (by rw [hfull, MAX_eq]; omega))
  refine ⟨r, hr, fun c => ?_⟩
  have h4 := SeqInv_pop h2 hr
  have hcnt : r.2.count < MAX := by
    have h5 := h2.ring.cnt
    have h6 := h4.ring.cnt
    simp only [List.length_append, List.length_singleton] at h6
    omega
  exact (SeqInv_append_done_iff c h4).mpr hcnt

/-- Instance of `blocking_correctness_created`: `main` after three appends and
one pop have returned. -/
theorem blocking_correctness_created_instance :
    queue_init SysCalls.allOk stale_queue = some fresh_queue ∧
    exec (startState fresh_queue harness_progs) sched_quiet = .done state_quiet ∧
    state_quiet.quiescent = true ∧
    ((queue_pop state_quiet.q).isDone = true ↔ 0 < state_quiet.q.count) ∧
    (state_quiet.q.count = 0 → queue_pop state_quiet.q = .blocked) ∧
    (∀ c, (queue_append state_quiet.q c).isDone = true ↔ state_quiet.q.count < MAX) ∧
    (∀ c, state_quiet.q.count = MAX → queue_append state_quiet.q c = .blocked) ∧
    ∀ cs : List Char, cs.length = MAX →
      ∃ qf, run fresh_queue (cs.map Op.append) = .done ([], qf) ∧
        (∀ c, queue_append qf c = .blocked) ∧
        ∃ r, queue_pop qf = .done r ∧ ∀ c, (queue_append r.2 c).isDone = true :=
  ⟨rfl, rfl, by decide,
    blocking_correctness_created SysCalls.allOk stale_queue fresh_queue harness_progs
      sched_quiet state_quiet rfl rfl rfl (by decide)⟩

/-- The saturation scenario on the queue filled by `"HelloWorld"`: an eleventh
append blocks, a pop returns `'H'`, and then an append completes with
`count` back at `MAX`. -/
theorem saturation_full_queue :
    full_queue.count = MAX ∧
    (queue_append full_queue '!').isDone = false ∧
    (queue_pop full_queue).get?.map (fun r => (r.1, r.2.count)) = some ('H', 9) ∧
    ((queue_pop full_queue).bind fun r => queue_append r.2 '!').get?.map
      (fun q1 => (q1.count, q1.in_, q1.out)) = some (10, 1, 1) := by
  decide

/-! ## One producer and one consumer: the test harness -/

/-- Effect of one step of a thread on what it has written, read, and has still
to do. -/
theorem stepThread_lists {q q1 : queue_s} {t t1 : Thread}
    (h : stepThread q t = .done (q1, t1)) :
    t1.sent ++ inflightPush t1 = (t.sent ++ inflightPush t) ++ pushEv t ∧
    t1.got ++ inflightTake t1 = (t.got ++ inflightTake t) ++ takeEv q t ∧
    t1.sent ++ appended t1.prog = t.sent ++ appended t.prog ∧
    t1.got.length + pops t1.prog = t.got.length + pops t.prog := by
  unfold stepThread at h
  split at h
  · cases h
  · rename_i c rest hprog
    split at h <;> rename_i hpc
    · obtain ⟨a, ha, h⟩ := bind_done h
      cases h
      simp [inflightPush, inflightTake, pushEv, takeEv, hprog, hpc]
    · obtain ⟨a, ha, h⟩ := bind_done h
      cases h
      simp [inflightPush, inflightTake, pushEv, takeEv, hprog, hpc]
    · obtain ⟨a, ha, h⟩ := bind_done h
      cases h
      simp [inflightPush, inflightTake, pushEv, takeEv, hprog, hpc]
    · obtain ⟨a, ha, h⟩ := bind_done h
      cases h
      simp [inflightPush, inflightTake, pushEv, takeEv, hprog, hpc]
    · cases h
      simp [inflightPush, inflightTake, pushEv, takeEv, hprog, hpc, appended, pops]
  · rename_i rest hprog
    split at h <;> rename_i hpc
    · obtain ⟨a, ha, h⟩ := bind_done h
      cases h
      simp [inflightPush, inflightTake, pushEv, takeEv, hprog, hpc]
    · obtain ⟨a, ha, h⟩ := bind_done h
      cases h
      simp [inflightPush, inflightTake, pushEv, takeEv, hprog, hpc]
    · obtain ⟨a, ha, h⟩ := bind_done h
      obtain ⟨_, _, hv, _, _⟩ := pop_body_done ha
      cases h
      simp [inflightPush, inflightTake, pushEv, takeEv, hprog, hpc, hv]
    · obtain ⟨a, ha, h⟩ := bind_done h
      cases h
      simp [inflightPush, inflightTake, pushEv, takeEv, hprog, hpc]
    · cases h
      simp [inflightPush, inflightTake, pushEv, takeEv, hprog, hpc, appended, pops]
      omega

/-- A thread that makes no append writes nothing. -/
theorem pushEv_no_append {t : Thread} (h : appended t.prog = []) : pushEv t = [] := by
  unfold pushEv
  split
  · rfl
  · rfl
  · rename_i c rest hprog
    rw [hprog] at h
    simp [appended] at h

/-- A thread that makes no pop reads nothing. -/
theorem takeEv_no_pop {t : Thread} (q : queue_s) (h : pops t.prog = 0) : takeEv q t = [] := by
  unfold takeEv
  split
  · rfl
  · rfl
  · rename_i rest hprog
    rw [hprog] at h
    simp [pops] at h

/-- A step keeps the one-producer/one-consumer invariant. -/
theorem PairInv_step {s s1 : State} {i : Nat} {t : Thread} {P T A : List Char} {n : Nat}
    (hI : PairInv s P T A n) (ht : s.threads[i]? = some t) (h : step s i = .done s1) :
    PairInv s1 (P ++ pushEv t) (T ++ takeEv s.q t) A n := by
  obtain ⟨c, p, hth, h1, h2, h3, h4, h5, h6, h7, h8⟩ := hI.threads
  obtain ⟨t0, r, ht0, hr, rfl⟩ := step_done h
  rw [ht] at ht0
  cases ht0
  obtain ⟨q1, t1⟩ := r
  obtain ⟨l1, l2, l3, l4⟩ := stepThread_lists hr
  rw [hth] at ht
  match i, ht with
  | 0, ht =>
    simp only [List.getElem?_cons_zero, Option.some.injEq] at ht
    subst ht
    have e1 : pushEv c = [] := pushEv_no_append h2
    rw [e1, List.append_nil] at l1 ⊢
    have e2 : c.sent ++ appended c.prog = [] := by rw [h1, h2]; rfl
    rw [e2] at l3
    have e3 := List.append_eq_nil.mp l3
    refine ⟨t1, p, by simp [hth], e3.1, e3.2, h3, h4, ?_, h6, h7, ?_⟩
    · rw [l2, h5]
    · rw [l4, h8]
  | 1, ht =>
    simp only [List.getElem?_cons_succ, List.getElem?_cons_zero, Option.some.injEq] at ht
    subst ht
    have e1 : takeEv s.q p = [] := takeEv_no_pop s.q h4
    rw [e1, List.append_nil] at l2 ⊢
    have e2 : p.got.length + pops p.prog = 0 := by rw [h3, h4]; rfl
    rw [e2] at l4
    refine ⟨c, t1, by simp [hth], h1, h2, ?_, by omega, h5, ?_, ?_, h8⟩
    · exact List.length_eq_zero.mp (by omega)
    · rw [l1, h6]
    · rw [l3, h7]
  | k + 2, ht =>
    simp at ht

/-- A schedule keeps both invariants. -/
theorem PairInv_exec {e0 f0 : Nat} (sched : List Nat) :
    ∀ (s s1 : State) (P T A : List Char) (n : Nat),
    Inv e0 f0 s P T → PairInv s P T A n → exec s sched = .done s1 →
    ∃ P1 T1, Inv e0 f0 s1 P1 T1 ∧ PairInv s1 P1 T1 A n := by
  induction sched with
  | nil =>
    intro s s1 P T A n hI hP h
    cases h
    exact ⟨P, T, hI, hP⟩
  | cons i rest ih =>
    intro s s1 P T A n hI hP h
    obtain ⟨s2, h2, h⟩ := bind_done h
    obtain ⟨t, r, ht, _, _⟩ := step_done h2
    exact ih s2 s1 _ _ A n (Inv_step hI ht h2) (PairInv_step hP ht h2) h

/-- The one-producer/one-consumer invariant holds when `main` has created its
threads. -/
theorem PairInv_main_start (q : queue_s) :
    PairInv (main_start q) [] [] "HelloWorld".toList 5 :=
  ⟨consumer, producer, rfl, rfl, rfl, rfl, rfl, rfl, rfl, rfl, rfl⟩

/-- In a finished state every thread is idle with nothing left to do. -/
theorem finished_idle {s : State} (h : s.finished = true) :
    ∀ t ∈ s.threads, t.pc = .idle ∧ t.prog = [] := by
  intro t ht
  simp only [State.finished, List.all_eq_true, Bool.and_eq_true, decide_eq_true_eq,
    List.isEmpty_iff] at h
  exact h t ht

/-- C5: the concrete scenario.  From `queue_init`, under every schedule of the
steps of `consumer` and `producer` that runs both to their end, the consumer
has popped `H,e,l,l,o` in order, the producer has appended the ten characters
of `"HelloWorld"`, and finally `count = 5`, `out = 5` and `buffer[out]` is
`'W'`. -/
theorem hello_scenario (sys : SysCalls) (q0 q : queue_s) (sched : List Nat) (s : State)
    (hinit : queue_init sys q0 = some q) (hx : exec (main_start q) sched = .done s)
    (hfin : s.finished = true) :
    s.threads.map (fun t => t.got) = [['H', 'e', 'l', 'l', 'o'], []] ∧
    s.threads.map (fun t => t.sent) = [[], "HelloWorld".toList] ∧
    s.q.count = 5 ∧ s.q.out = 5 ∧ s.q.buffer s.q.out = 'W' := by
  have hI0 : Inv q.empty q.full (main_start q) [] [] := Inv_start harness_progs hinit
  obtain ⟨P, T, hI, hP⟩ :=
    PairInv_exec sched _ _ [] [] _ 5 hI0 (PairInv_main_start q) hx
  obtain ⟨c, p, hth, h1, h2, h3, h4, h5, h6, h7, h8⟩ := hP.threads
  have hfi := finished_idle hfin
  obtain ⟨hcpc, hcprog⟩ := hfi c (by simp [hth])
  obtain ⟨hppc, hpprog⟩ := hfi p (by simp [hth])
  simp only [inflightTake, hcpc, List.append_nil] at h5
  simp only [inflightPush, hppc, List.append_nil] at h6
  simp only [hpprog, appended, List.append_nil] at h7
  simp only [hcprog, pops, Nat.add_zero] at h8
  obtain ⟨r1, r2, r3, r4, r5, r6⟩ := hI.ring
  have hPA : P = "HelloWorld".toList := by rw [← h6, h7]
  have hTl : T.length = 5 := by rw [← h5, h8]
  have hT : T = ['H', 'e', 'l', 'l', 'o'] := by
    rw [r5, hTl, hPA]
    rfl
  have hPl : P.length = 10 := by rw [hPA]; rfl
  have hout : s.q.out = 5 := by rw [r2, hTl]; rfl
  refine ⟨?_, ?_, ?_, hout, ?_⟩
  · rw [hth]
    simp [h5, hT, h3]
  · rw [hth]
    simp [h1, h7]
  · omega
  · have h9 := r6 5 (by omega) (by omega)
    rw [hPA] at h9
    rw [hout]
    have h10 : "HelloWorld".toList[5]? = some 'W' := by decide
    rw [h10] at h9
    have h11 : 5 % MAX = 5 := by decide
    rw [h11] at h9
    exact (Option.some.inj h9).symm

/-- Instance of `hello_scenario`: the schedule `sched_full`. -/
theorem hello_scenario_witness :
    queue_init SysCalls.allOk stale_queue = some fresh_queue ∧
    exec (main_start fresh_queue) sched_full = .done state_full ∧
    state_full.finished = true ∧
    state_full.threads.map (fun t => t.got) = [['H', 'e', 'l', 'l', 'o'], []] ∧
    state_full.threads.map (fun t => t.sent) = [[], "HelloWorld".toList] ∧
    state_full.q.count = 5 ∧ state_full.q.out = 5 ∧
    state_full.q.buffer state_full.q.out = 'W' :=
  ⟨rfl, rfl, by decide,
    hello_scenario SysCalls.allOk stale_queue fresh_queue sched_full state_full rfl rfl
      (by decide)⟩

/-- The scenario at the level of whole calls: any order of the ten appends of
`"HelloWorld"` and five pops in which each pop is issued when `count > 0`,
when it has run to its end, has returned `H,e,l,l,o` and ends with
`count = 5`, `out = 5` and `'W'` at `buffer[out]`; it does run to its end
when `queue_init` created the semaphores. -/
theorem hello_scenario_calls (sys : SysCalls) (q0 q : queue_s) (ops : List Op)
    (hinit : queue_init sys q0 = some q) (ha : appended ops = "HelloWorld".toList)
    (hp : pops ops = 5) (hg : guarded q ops = true) :
    (∀ res q1, run q ops = .done (res, q1) →
      res = ['H', 'e', 'l', 'l', 'o'] ∧
      q1.count = 5 ∧ q1.out = 5 ∧ q1.buffer q1.out = 'W') ∧
    (sys.fresh = true → ∃ res q1, run q ops = .done (res, q1)) := by
  constructor
  · intro res q1 h1
    obtain ⟨h2, h3⟩ := run_done_spec ops q [] [] (res, q1) (SeqInv_init_any hinit) h1
    obtain ⟨r1, r2, r3, r4, r5, r6⟩ := h2.ring
    simp only [List.nil_append, ha] at r1 r2 r3 r5 r6
    simp only [hp] at h3
    have hres : res = ['H', 'e', 'l', 'l', 'o'] := by
      rw [r5, h3]
      rfl
    have hout : q1.out = 5 := by rw [r2, h3]; rfl
    refine ⟨hres, ?_, hout, ?_⟩
    · rw [h3] at r3
      have : "HelloWorld".toList.length = 10 := rfl
      omega
    · have h9 := r6 5 (by omega) (by decide)
      have h10 : "HelloWorld".toList[5]? = some 'W' := by decide
      rw [h10] at h9
      have h11 : 5 % MAX = 5 := by decide
      rw [h11] at h9
      rw [hout]
      exact (Option.some.inj h9).symm
  · intro hfresh
    obtain ⟨res, q1, h1, _, _⟩ := run_spec ops q [] [] (SeqInv_init hinit hfresh) hg
    exact ⟨res, q1, h1⟩

/-! ## Assertions and array accesses -/

/-- The share of one thread is at most the sum over the threads. -/
theorem le_sum_map (f : Thread → Nat) :
    ∀ (l : List Thread) (i : Nat) (t : Thread), l[i]? = some t → f t ≤ (l.map f).sum := by
  intro l
  induction l with
  | nil => intro i t h; simp at h
  | cons x xs ih =>
    intro i t h
    cases i with
    | zero =>
      simp only [List.getElem?_cons_zero, Option.some.injEq] at h
      subst h
      simp only [List.map_cons, List.sum_cons]
      omega
    | succ j =>
      simp only [List.getElem?_cons_succ] at h
      have := ih j t h
      simp only [List.map_cons, List.sum_cons]
      omega

/-- Under the invariant, a thread about to run the critical section of
`queue_append` finds `count < MAX`. -/
theorem Inv_count_lt {s : State} {P T : List Char} {i : Nat} {t : Thread} {c : Char}
    {rest : List Op} (hI : Inv MAX 0 s P T) (ht : s.threads[i]? = some t) (hpc : t.pc = .locked)
    (hprog : t.prog = .append c :: rest) : s.q.count < MAX := by
  have h1 := le_sum_map heldEmpty s.threads i t ht
  have h2 : heldEmpty t = 1 := by simp [heldEmpty, hpc, hprog]
  have h3 := hI.hE
  omega

/-- Under the invariant, a thread about to run the critical section of
`queue_pop` finds `count > 0`. -/
theorem Inv_count_pos {s : State} {P T : List Char} {i : Nat} {t : Thread}
    {rest : List Op} (hI : Inv MAX 0 s P T) (ht : s.threads[i]? = some t) (hpc : t.pc = .locked)
    (hprog : t.prog = .pop :: rest) : 0 < s.q.count := by
  have h1 := le_sum_map pendingFull s.threads i t ht
  have h2 : pendingFull t = 1 := by simp [pendingFull, hpc, hprog]
  have h3 := hI.hF
  omega

/-- Under the invariant, a thread about to unlock finds the mutex held. -/
theorem Inv_mutex_held {e0 f0 : Nat} {s : State} {P T : List Char} {i : Nat} {t : Thread}
    {op : Op} {rest : List Op} (hI : Inv e0 f0 s P T) (ht : s.threads[i]? = some t)
    (hpc : t.pc = .bodydone ∨ t.pc = .locked)
    (hprog : t.prog = op :: rest) : s.q.mutex = true := by
  have h1 := le_sum_map holdsMutex s.threads i t ht
  have h2 : holdsMutex t = 1 := by
    rcases hpc with hpc | hpc <;> simp [holdsMutex, hpc, hprog]
  have h3 := hI.hM
  cases hm : s.q.mutex
  · rw [hm] at h3
    simp at h3
    omega
  · rfl

/-- When `queue_init` created the semaphores every step of every thread
either completes or waits: no assertion fails and no access is undefined. -/
theorem step_safe {s : State} {P T : List Char} (hI : Inv MAX 0 s P T) (i : Nat) :
    step s i = .blocked ∨ ∃ s1, step s i = .done s1 := by
  unfold step
  cases ht : s.threads[i]? with
  | none => exact Or.inl rfl
  | some t =>
    simp only
    have key : stepThread s.q t = .blocked ∨ ∃ r, stepThread s.q t = .done r := by
      unfold stepThread
      split
      · exact Or.inl rfl
      · rename_i c rest hprog
        split <;> rename_i hpc
        · unfold sem_wait_empty
          split
          · exact Or.inr ⟨_, rfl⟩
          · exact Or.inl rfl
        · unfold pthread_mutex_lock
          split
          · exact Or.inl rfl
          · exact Or.inr ⟨_, rfl⟩
        · obtain ⟨q1, h1⟩ := QInv_append_body_runs c hI.ring (Inv_count_lt hI ht hpc hprog)
          rw [h1]
          exact Or.inr ⟨_, rfl⟩
        · have hm := Inv_mutex_held hI ht (Or.inl hpc) hprog
          simp only [pthread_mutex_unlock, hm, if_true]
          exact Or.inr ⟨_, rfl⟩
        · exact Or.inr ⟨_, rfl⟩
      · rename_i rest hprog
        split <;> rename_i hpc
        · unfold sem_wait_full
          split
          · exact Or.inr ⟨_, rfl⟩
          · exact Or.inl rfl
        · unfold pthread_mutex_lock
          split
          · exact Or.inl rfl
          · exact Or.inr ⟨_, rfl⟩
        · obtain ⟨r, h1⟩ := QInv_pop_body_runs hI.ring (Inv_count_pos hI ht hpc hprog)
          rw [h1]
          exact Or.inr ⟨_, rfl⟩
        · have hm := Inv_mutex_held hI ht (Or.inl hpc) hprog
          simp only [pthread_mutex_unlock, hm, if_true]
          exact Or.inr ⟨_, rfl⟩
        · exact Or.inr ⟨_, rfl⟩
    rcases key with h | ⟨r, h⟩
    · rw [h]; exact Or.inl rfl
    · rw [h]; exact Or.inr ⟨_, rfl⟩

/-- When `queue_init` created the semaphores every schedule either runs to its
end or stops at a thread that has to wait. -/
theorem exec_safe (sched : List Nat) : ∀ (s : State) (P T : List Char), Inv MAX 0 s P T →
    exec s sched = .blocked ∨ ∃ s1, exec s sched = .done s1 := by
  induction sched with
  | nil => intro s P T _; exact Or.inr ⟨s, rfl⟩
  | cons i rest ih =>
    intro s P T hI
    rcases step_safe hI i with h | ⟨s1, h⟩
    · left
      simp [exec, h, Outcome.bind]
    · obtain ⟨t, r, ht, _, _⟩ := step_done h
      have := ih s1 _ _ (Inv_step hI ht h)
      simpa [exec, h, Outcome.bind] using this

/-- The critical section of `queue_append` is defined when `in < MAX`, and
never waits. -/
theorem append_body_defined {q : queue_s} (c : Char) (h : q.in_ < MAX) :
    append_body q c ≠ .undefined ∧ append_body q c ≠ .blocked := by
  unfold append_body
  simp only [h, if_true]
  split <;> exact ⟨fun h => (by cases h), fun h => (by cases h)⟩

/-- The critical section of `queue_pop` is defined when `out < MAX`, and
never waits. -/
theorem pop_body_defined {q : queue_s} (h : q.out < MAX) :
    pop_body q ≠ .undefined ∧ pop_body q ≠ .blocked := by
  unfold pop_body
  simp only [h, if_true]
  split
  · split <;> exact ⟨fun h => (by cases h), fun h => (by cases h)⟩
  · exact ⟨fun h => (by cases h), fun h => (by cases h)⟩

/-- Whatever values `queue_init` left in the semaphores, no step of a thread
is undefined, and a thread that holds the mutex does not wait. -/
theorem stepThread_defined {e0 f0 : Nat} {s : State} {P T : List Char} {i : Nat}
    {t : Thread} (hI : Inv e0 f0 s P T) (ht : s.threads[i]? = some t) :
    stepThread s.q t ≠ .undefined ∧ (holdsMutex t = 1 → stepThread s.q t ≠ .blocked) := by
  have hin : s.q.in_ < MAX := by rw [hI.ring.in_eq, MAX_eq]; omega
  have hout : s.q.out < MAX := by rw [hI.ring.out_eq, MAX_eq]; omega
  unfold stepThread
  split
  · rename_i hprog
    refine ⟨fun h => (by cases h), fun hh => ?_⟩
    cases hpc : t.pc <;> simp [holdsMutex, hpc, hprog] at hh
  · rename_i c rest hprog
    split <;> rename_i hpc
    · refine ⟨?_, fun hh => by simp [holdsMutex, hpc, hprog] at hh⟩
      unfold sem_wait_empty
      split <;> exact fun h => by cases h
    · refine ⟨?_, fun hh => by simp [holdsMutex, hpc, hprog] at hh⟩
      unfold pthread_mutex_lock
      split <;> exact fun h => by cases h
    · obtain ⟨d1, d2⟩ := append_body_defined c hin
      cases hb : append_body s.q c with
      | done a => exact ⟨fun h => (by cases h), fun _ h => (by cases h)⟩
      | blocked => exact absurd hb d2
      | abort => exact ⟨fun h => (by cases h), fun _ h => (by cases h)⟩
      | undefined => exact absurd hb d1
    · have hm := Inv_mutex_held hI ht (Or.inl hpc) hprog
      simp only [pthread_mutex_unlock, hm, if_true]
      exact ⟨fun h => (by cases h), fun _ h => (by cases h)⟩
    · exact ⟨fun h => (by cases h), fun _ h => (by cases h)⟩
  · rename_i rest hprog
    split <;> rename_i hpc
    · refine ⟨?_, fun hh => by simp [holdsMutex, hpc, hprog] at hh⟩
      unfold sem_wait_full
      split <;> exact fun h => by cases h
    · refine ⟨?_, fun hh => by simp [holdsMutex, hpc, hprog] at hh⟩
      unfold pthread_mutex_lock
      split <;> exact fun h => by cases h
    · obtain ⟨d1, d2⟩ := pop_body_defined hout
      cases hb : pop_body s.q with
      | done a => exact ⟨fun h => (by cases h), fun _ h => (by cases h)⟩
      | blocked => exact absurd hb d2
      | abort => exact ⟨fun h => (by cases h), fun _ h => (by cases h)⟩
      | undefined => exact absurd hb d1
    · have hm := Inv_mutex_held hI ht (Or.inl hpc) hprog
      simp only [pthread_mutex_unlock, hm, if_true]
      exact ⟨fun h => (by cases h), fun _ h => (by cases h)⟩
    · exact ⟨fun h => (by cases h), fun _ h => (by cases h)⟩

/-- Whatever values `queue_init` left in the semaphores, no step is undefined. -/
theorem step_defined {e0 f0 : Nat} {s : State} {P T : List Char} (hI : Inv e0 f0 s P T)
    (i : Nat) : step s i ≠ .undefined := by
  unfold step
  cases ht : s.threads[i]? with
  | none => exact fun h => by cases h
  | some t =>
    simp only
    have h1 := (stepThread_defined hI ht).1
    cases hs : stepThread s.q t with
    | done a => exact fun h => by cases h
    | blocked => exact fun h => by cases h
    | abort => exact fun h => by cases h
    | undefined => exact absurd hs h1

/-- Whatever values `queue_init` left in the semaphores, no schedule ends in
an undefined step. -/
theorem exec_defined {e0 f0 : Nat} (sched : List Nat) :
    ∀ (s : State) (P T : List Char), Inv e0 f0 s P T → exec s sched ≠ .undefined := by
  induction sched with
  | nil => intro s P T _ h; cases h
  | cons i rest ih =>
    intro s P T hI
    have h1 := step_defined hI i
    cases hs : step s i with
    | done s1 =>
      obtain ⟨t, r, ht, _, _⟩ := step_done hs
      have := ih s1 _ _ (Inv_step hI ht hs)
      simpa [exec, hs, Outcome.bind] using this
    | blocked => simp [exec, hs, Outcome.bind]
    | abort => simp [exec, hs, Outcome.bind]
    | undefined => exact absurd hs h1

/-- C11, on the code: the precondition assertions fail when `queue_init`
opened semaphores that existed already.  With `"full"` at `2`, the consumer
of `main` passes `sem_wait` on the empty queue, takes the mutex and fails
`assert(count > 0)` with `count = 0`: the schedule `[0, 0, 0]` ends in the
abort.  With `"empty"` at `12`, a thread making eleven appends passes its
eleventh `sem_wait` on the full queue and fails `assert(count < MAX)` with
`count = MAX`. -/
theorem assertions_fail_on_existing_semaphores :
    queue_init SysCalls.stale stale_queue = some stale_init_queue ∧
    exec (startState stale_init_queue harness_progs) [0, 0] = .done stale_pop_locked ∧
    stale_pop_locked.threads.map (fun t => (t.pc, t.prog.head?)) =
      [(PC.locked, some Op.pop), (PC.idle, some (Op.append 'H'))] ∧
    stale_pop_locked.q.count = 0 ∧
    step stale_pop_locked 0 = .abort ∧
    exec (startState stale_init_queue harness_progs) [0, 0, 0] = .abort ∧
    queue_init SysCalls.surplus stale_queue = some surplus_init_queue ∧
    exec (startState surplus_init_queue eleven_progs) (List.replicate 52 0) =
      .done surplus_append_locked ∧
    surplus_append_locked.threads.map (fun t => (t.pc, t.prog.head?)) =
      [(PC.locked, some (Op.append '!'))] ∧
    surplus_append_locked.q.count = MAX ∧
    step surplus_append_locked 0 = .abort ∧
    exec (startState surplus_init_queue eleven_progs) (List.replicate 53 0) = .abort := by
  refine ⟨rfl, rfl, by decide, rfl, rfl, rfl, rfl, rfl, by decide, rfl, rfl, rfl⟩

/-- Validity of the precondition assertions when `queue_init` created the
semaphores.  Under any schedule of the steps of any number of threads, no
execution ends in a failed assertion; in every state reached, no step fails
an assertion, a thread about to run the critical section of `queue_append`
finds `count < MAX` and one about to run that of `queue_pop` finds
`count > 0`. -/
theorem assertions_never_fail_created (sys : SysCalls) (q0 q : queue_s)
    (progs : List (List Op)) (sched : List Nat) (hinit : queue_init sys q0 = some q)
    (hfresh : sys.fresh = true) :
    exec (startState q progs) sched ≠ .abort ∧
    ∀ s, exec (startState q progs) sched = .done s →
      (∀ i, step s i ≠ .abort) ∧
      ∀ (i : Nat) (t : Thread) (rest : List Op),
        s.threads[i]? = some t → t.pc = .locked →
        (∀ c, t.prog = .append c :: rest → s.q.count < MAX) ∧
        (t.prog = .pop :: rest → 0 < s.q.count) := by
  have h0 := Inv_start_created progs hinit hfresh
  constructor
  · intro h
    rcases exec_safe sched _ _ _ h0 with h1 | ⟨s1, h1⟩ <;> rw [h] at h1 <;> cases h1
  · intro s hx
    obtain ⟨P, T, hI⟩ := Inv_exec sched _ _ [] [] h0 hx
    constructor
    · intro i h
      rcases step_safe hI i with h1 | ⟨s1, h1⟩ <;> rw [h] at h1 <;> cases h1
    · intro i t rest ht hpc
      exact ⟨fun c hprog => Inv_count_lt hI ht hpc hprog,
        fun hprog => Inv_count_pos hI ht hpc hprog⟩

/-- Instance of `assertions_never_fail_created`: `main` stopped with the
consumer about to run the critical section of its first pop. -/
theorem assertions_never_fail_created_instance :
    queue_init SysCalls.allOk stale_queue = some fresh_queue ∧
    (exec (startState fresh_queue harness_progs) sched_pop_locked ≠ .abort ∧
    ∀ s, exec (startState fresh_queue harness_progs) sched_pop_locked = .done s →
      (∀ i, step s i ≠ .abort) ∧
      ∀ (i : Nat) (t : Thread) (rest : List Op),
        s.threads[i]? = some t → t.pc = .locked →
        (∀ c, t.prog = .append c :: rest → s.q.count < MAX) ∧
        (t.prog = .pop :: rest → 0 < s.q.count)) :=
  ⟨rfl, assertions_never_fail_created SysCalls.allOk stale_queue fresh_queue harness_progs
    sched_pop_locked rfl rfl⟩

/-- The state after `sched_pop_locked`: the consumer holds the mutex with one
character in the queue, and its next step completes. -/
theorem state_pop_locked_fields :
    exec (startState fresh_queue harness_progs) sched_pop_locked = .done state_pop_locked ∧
    state_pop_locked.threads.map (fun t => (t.pc, t.prog.head?)) =
      [(PC.locked, some Op.pop), (PC.waited, some (Op.append 'e'))] ∧
    state_pop_locked.q.count = 1 ∧ state_pop_locked.q.mutex = true ∧
    (step state_pop_locked 0).isDone = true ∧ (step state_pop_locked 1).isDone = false := by
  refine ⟨rfl, by decide, by decide, by decide, by decide, by decide⟩

/-- C13: validity of the consistency assertion of line 82.  In every state
reached from `queue_init`, whatever the semaphores hold, for a thread about
to run the critical section of `queue_pop`: when line 80 passes
(`count > 0`) the critical section runs to its end, and after `out` is
advanced and `count` decremented `count == (in + MAX - out) % MAX` holds,
also when `count` was `MAX` before; and line 80 does pass when `queue_init`
created the semaphores. -/
theorem consistency_assertion_holds (sys : SysCalls) (q0 q : queue_s)
    (progs : List (List Op)) (sched : List Nat) (s : State) (i : Nat) (t : Thread)
    (rest : List Op) (hinit : queue_init sys q0 = some q)
    (hx : exec (startState q progs) sched = .done s)
    (ht : s.threads[i]? = some t) (hpc : t.pc = .locked) (hprog : t.prog = .pop :: rest) :
    (0 < s.q.count →
      (∃ r, pop_body s.q = .done r ∧ r.2.out = (s.q.out + 1) % MAX ∧
        r.2.count = s.q.count - 1 ∧ r.2.count = (r.2.in_ + MAX - r.2.out) % MAX) ∧
      (step s i).isDone = true) ∧
    (sys.fresh = true → 0 < s.q.count) := by
  constructor
  · intro hc
    obtain ⟨P, T, hI⟩ := Inv_reach hinit hx
    obtain ⟨r, hr⟩ := QInv_pop_body_runs hI.ring hc
    constructor
    · refine ⟨r, hr, ?_⟩
      obtain ⟨ho, _, _, h2, h3⟩ := pop_body_done hr
      have hi : s.q.in_ < MAX := by rw [hI.ring.in_eq, MAX_eq]; omega
      rw [h2]
      refine ⟨rfl, rfl, ?_⟩
      show s.q.count - 1 = (s.q.in_ + MAX - (s.q.out + 1) % MAX) % MAX
      rw [h3]
      rw [MAX_eq] at *
      rw [SIZE_MOD_eq]
      omega
    · unfold step
      rw [ht]
      simp only [stepThread, hprog, hpc, hr, Outcome.bind]
      rfl
  · intro hfresh
    obtain ⟨P, T, hI⟩ := Inv_reach_created hinit hfresh hx
    exact Inv_count_pos hI ht hpc hprog

/-- Instance of `consistency_assertion_holds`: the consumer pops from the
completely full queue. -/
theorem consistency_assertion_holds_witness :
    queue_init SysCalls.allOk stale_queue = some fresh_queue ∧
    exec (startState fresh_queue harness_progs) sched_pop_full = .done state_pop_full ∧
    state_pop_full.threads[0]? = some (state_pop_full.threads.getD 0 consumer) ∧
    (state_pop_full.threads.getD 0 consumer).pc = .locked ∧
    (state_pop_full.threads.getD 0 consumer).prog = .pop :: List.replicate 4 Op.pop ∧
    ((0 < state_pop_full.q.count →
      (∃ r, pop_body state_pop_full.q = .done r ∧
        r.2.out = (state_pop_full.q.out + 1) % MAX ∧
        r.2.count = state_pop_full.q.count - 1 ∧
        r.2.count = (r.2.in_ + MAX - r.2.out) % MAX) ∧
      (step state_pop_full 0).isDone = true) ∧
    (SysCalls.allOk.fresh = true → 0 < state_pop_full.q.count)) :=
  ⟨rfl, rfl, rfl, rfl, rfl,
    consistency_assertion_holds SysCalls.allOk stale_queue fresh_queue harness_progs
      sched_pop_full state_pop_full 0 (state_pop_full.threads.getD 0 consumer)
      (List.replicate 4 Op.pop) rfl rfl rfl rfl rfl⟩

/-- The pop from the full queue: `count` is `MAX` before, and after the
critical section `count = 9`, `in = 0`, `out = 1`, where
`(in + MAX - out) % MAX` is `9`. -/
theorem state_pop_full_fields :
    (state_pop_full.q.count, state_pop_full.q.in_, state_pop_full.q.out) = (10, 0, 0) ∧
    (pop_body state_pop_full.q).get?.map
      (fun r => (r.1, r.2.count, r.2.in_, r.2.out, (r.2.in_ + MAX - r.2.out) % MAX)) =
      some ('H', 9, 0, 1, 9) := by
  constructor <;> decide

/-- C14: index bounds.  From `queue_init`, under any schedule of the steps of
any number of threads, no execution ends in an undefined access; in every
state reached `0 <= in < MAX` and `0 <= out < MAX`, and no step makes an
access outside the buffer. -/
theorem index_bounds (sys : SysCalls) (q0 q : queue_s) (progs : List (List Op))
    (sched : List Nat) (hinit : queue_init sys q0 = some q) :
    exec (startState q progs) sched ≠ .undefined ∧
    ∀ s, exec (startState q progs) sched = .done s →
      (0 ≤ s.q.in_ ∧ s.q.in_ < MAX) ∧ (0 ≤ s.q.out ∧ s.q.out < MAX) ∧
      ∀ i, step s i ≠ .undefined := by
  have h0 := Inv_start progs hinit
  constructor
  · exact exec_defined sched _ _ _ h0
  · intro s hx
    obtain ⟨P, T, hI⟩ := Inv_exec sched _ _ [] [] h0 hx
    refine ⟨⟨Nat.zero_le _, ?_⟩, ⟨Nat.zero_le _, ?_⟩, ?_⟩
    · rw [hI.ring.in_eq, MAX_eq]; omega
    · rw [hI.ring.out_eq, MAX_eq]; omega
    · exact fun i => step_defined hI i

/-- Instance of `index_bounds`: `main` stopped with the producer about to write
into the last slot. -/
theorem index_bounds_witness :
    queue_init SysCalls.allOk stale_queue = some fresh_queue ∧
    (exec (startState fresh_queue harness_progs) sched_last_slot ≠ .undefined ∧
    ∀ s, exec (startState fresh_queue harness_progs) sched_last_slot = .done s →
      (0 ≤ s.q.in_ ∧ s.q.in_ < MAX) ∧ (0 ≤ s.q.out ∧ s.q.out < MAX) ∧
      ∀ i, step s i ≠ .undefined) :=
  ⟨rfl, index_bounds SysCalls.allOk stale_queue fresh_queue harness_progs
    sched_last_slot rfl⟩

/-- The state after `sched_last_slot` has `in = 9`; the producer's critical
section then writes slot `9` and brings `in` back to `0`. -/
theorem state_last_slot_fields :
    exec (startState fresh_queue harness_progs) sched_last_slot = .done state_last_slot ∧
    (state_last_slot.q.in_, state_last_slot.q.out, state_last_slot.q.count) = (9, 0, 9) ∧
    (step state_last_slot 1).get?.map (fun s => (s.q.buffer 9, s.q.in_, s.q.count)) =
      some ('d', 0, 10) := by
  refine ⟨rfl, by decide, by decide⟩

/-- Inside the critical section the bound on `in` is not kept at every
statement: in the append from `state_last_slot`, where `in = 9`, line 61
makes `in` equal to `MAX` and line 62 brings it back to `0`; the access of
line 60 comes before both. -/
theorem in_between_lines_61_and_62 :
    state_last_slot.q.in_ < MAX ∧
    (state_last_slot.q.in_ + 1) % SIZE_MOD = MAX ∧
    (state_last_slot.q.in_ + 1) % SIZE_MOD % MAX = 0 := by
  refine ⟨by decide, by decide, by decide⟩

/-! ## The two semaphores together -/

/-- C16, on the code: when `queue_init` opened semaphores that existed
already the two semaphores do not add up to `MAX`.  With `"empty"` at `0`
(and `"full"` created at `0`) the state after `queue_init`, with no call in
progress, has both semaphores at `0` and both `queue_append` and `queue_pop`
block.  With `"empty"` at `12` the sum is `12 > MAX`, and with `"full"` at
`2` and `"empty"` at `3` it is `5`. -/
theorem both_blocked_on_existing_semaphores :
    queue_init SysCalls.drained stale_queue = some drained_init_queue ∧
    exec (startState drained_init_queue harness_progs) [] =
      .done (startState drained_init_queue harness_progs) ∧
    (startState drained_init_queue harness_progs).quiescent = true ∧
    (drained_init_queue.empty, drained_init_queue.full) = (0, 0) ∧
    queue_append drained_init_queue 'H' = .blocked ∧
    queue_pop drained_init_queue = .blocked ∧
    queue_init SysCalls.surplus stale_queue = some surplus_init_queue ∧
    MAX < surplus_init_queue.empty + surplus_init_queue.full ∧
    queue_init SysCalls.stale stale_queue = some stale_init_queue ∧
    stale_init_queue.empty + stale_init_queue.full = 5 := by
  refine ⟨rfl, rfl, by decide, by decide, rfl, rfl, rfl, by decide, rfl, by decide⟩

/-- In every reachable state the two semaphores add up to at most the sum of
the values `queue_init` left in them, and to that sum when no call is in
progress.  When `queue_init` created them: `empty + full <= MAX`, and with
no call in progress `empty + full = MAX > 0`, so one of the two semaphores
is positive and `queue_append` and `queue_pop` are not both blocked: one of
them completes. -/
theorem not_both_blocked_created (sys : SysCalls) (q0 q : queue_s)
    (progs : List (List Op)) (sched : List Nat) (s : State)
    (hinit : queue_init sys q0 = some q)
    (hx : exec (startState q progs) sched = .done s) :
    (s.q.empty + s.q.full ≤ q.empty + q.full ∧
      (s.quiescent = true → s.q.empty + s.q.full = q.empty + q.full)) ∧
    (sys.fresh = true →
      s.q.empty + s.q.full ≤ MAX ∧
      (s.quiescent = true →
        s.q.empty + s.q.full = MAX ∧ 0 < MAX ∧ (0 < s.q.empty ∨ 0 < s.q.full) ∧
        ∀ c, ¬ (queue_append s.q c = .blocked ∧ queue_pop s.q = .blocked) ∧
          ((queue_append s.q c).isDone = true ∨ (queue_pop s.q).isDone = true))) := by
  constructor
  · obtain ⟨P, T, hI⟩ := Inv_reach hinit hx
    have h1 := hI.hE
    have h2 := hI.hF
    refine ⟨by omega, fun hq => ?_⟩
    have h := Inv_quiescent hI hq
    have h3 := h.hE
    have h4 := h.hF
    omega
  · intro hfresh
    obtain ⟨P, T, hI⟩ := Inv_reach_created hinit hfresh hx
    constructor
    · have h1 := hI.hE
      have h2 := hI.hF
      omega
    · intro hq
      have h := Inv_quiescent hI hq
      have h1 := h.hE
      have h2 := h.hF
      have hM : 0 < MAX := by decide
      refine ⟨by omega, hM, by omega, fun c => ?_⟩
      have hdone : (queue_append s.q c).isDone = true ∨ (queue_pop s.q).isDone = true := by
        by_cases hc : s.q.count < MAX
        · exact Or.inl ((SeqInv_append_done_iff c h).mpr hc)
        · exact Or.inr ((SeqInv_pop_done_iff h).mpr (by omega))
      refine ⟨?_, hdone⟩
      rintro ⟨ha, hp⟩
      rcases hdone with hd | hd
      · rw [ha] at hd; cases hd
      · rw [hp] at hd; cases hd

/-- Instance of `not_both_blocked_created`: `main` after three appends and one
pop have returned. -/
theorem not_both_blocked_created_instance :
    queue_init SysCalls.allOk stale_queue = some fresh_queue ∧
    exec (startState fresh_queue harness_progs) sched_quiet = .done state_quiet ∧
    state_quiet.q.empty + state_quiet.q.full ≤ MAX ∧
    (state_quiet.quiescent = true →
      state_quiet.q.empty + state_quiet.q.full = MAX ∧ 0 < MAX ∧
      (0 < state_quiet.q.empty ∨ 0 < state_quiet.q.full) ∧
      ∀ c, ¬ (queue_append state_quiet.q c = .blocked ∧ queue_pop state_quiet.q = .blocked) ∧
        ((queue_append state_quiet.q c).isDone = true ∨
          (queue_pop state_quiet.q).isDone = true)) :=
  ⟨rfl, rfl,
    (not_both_blocked_created SysCalls.allOk stale_queue fresh_queue harness_progs
      sched_quiet state_quiet rfl rfl).2 rfl⟩

/-- With calls in progress the sum of the semaphores is below `MAX`: in
`state_mid` it is `8`, and in `state_pop_full` it is `9`. -/
theorem semaphores_in_flight :
    state_mid.q.empty + state_mid.q.full = 8 ∧
    (state_pop_full.q.empty, state_pop_full.q.full) = (0, 9) := by
  constructor <;> decide

/-! ## Refinement of the abstract FIFO list -/

/-- Under the ring-buffer invariant the characters held are those written and
not yet read. -/
theorem contents_eq_drop {q : queue_s} {P T : List Char} (h : QInv q P T) :
    contents q = P.drop T.length := by
  obtain ⟨h1, h2, h3, h4, h5, h6⟩ := h
  apply List.ext_getElem?
  intro k
  unfold contents
  rw [List.getElem?_map, List.getElem?_drop]
  by_cases hk : k < q.count
  · rw [List.getElem?_range hk, h6 (T.length + k) (by omega) (by omega)]
    simp only [Option.map_some']
    congr 2
    rw [h2, MAX_eq]
    omega
  · have h7 : (List.range q.count)[k]? = none := by
      apply List.getElem?_eq_none
      simp only [List.length_range]
      omega
    have h8 : P[T.length + k]? = none := by
      apply List.getElem?_eq_none
      omega
    rw [h7, h8]
    rfl

/-- The characters written and not yet read, when one more is read. -/
theorem drop_of_take_concat {P T : List Char} {v : Char} (h1 : T = P.take T.length)
    (h2 : T ++ [v] = P.take (T ++ [v]).length) :
    P.drop T.length = v :: P.drop (T.length + 1) := by
  have e1 := List.take_append_drop T.length P
  have e2 := List.take_append_drop (T.length + 1) P
  simp only [List.length_append, List.length_singleton] at h2
  rw [← h1] at e1
  rw [← h2, List.append_assoc] at e2
  have e3 : T ++ P.drop T.length = T ++ ([v] ++ P.drop (T.length + 1)) := by
    rw [e1, e2]
  exact List.append_cancel_left e3

/-- C12: refinement of an abstract FIFO list.  The abstraction `contents` maps
the state after `queue_init` to the empty list; on every state reached by
completed calls its length is `count`; with `count < MAX` a completed
`queue_append(c)` maps to appending `c` at the back, and the call completes
when the empty semaphore is positive; with `count > 0` a completed
`queue_pop` returns the head and maps to the tail, and the call completes
when the full semaphore is positive.  When `queue_init` created the
semaphores they are positive as soon as `count < MAX`, respectively
`count > 0`. -/
theorem fifo_refinement (q : queue_s) (h : SeqReach q) :
    (∀ (sys : SysCalls) (q0 qi : queue_s), queue_init sys q0 = some qi →
      contents qi = fifo_init) ∧
    (contents q).length = q.count ∧
    (q.count < MAX → ∀ c,
      (∀ q1, queue_append q c = .done q1 → contents q1 = fifo_append (contents q) c) ∧
      (0 < q.empty → ∃ q1, queue_append q c = .done q1)) ∧
    (0 < q.count →
      (∀ r, queue_pop q = .done r → fifo_pop (contents q) = some (r.1, contents r.2)) ∧
      (0 < q.full → ∃ r, queue_pop q = .done r)) ∧
    (∀ (sys : SysCalls) (q0 qi : queue_s) (ops : List Op) (res : List Char),
      queue_init sys q0 = some qi → sys.fresh = true → run qi ops = .done (res, q) →
      (q.count < MAX → 0 < q.empty) ∧ (0 < q.count → 0 < q.full)) := by
  obtain ⟨e0, f0, P, T, hI⟩ := SeqReach_inv h
  have hle : T.length ≤ P.length := by
    have := hI.ring.cnt
    omega
  refine ⟨?_, ?_, ?_, ?_, ?_⟩
  · intro sys q0 qi hi
    rw [contents_eq_drop (QInv_init hi)]
    rfl
  · simp [contents]
  · intro hc c
    constructor
    · intro q1 h1
      rw [contents_eq_drop (SeqInv_append hI h1).ring, contents_eq_drop hI.ring,
        List.drop_append_of_le_length hle]
      rfl
    · intro he
      exact isDone_iff.mp ((queue_append_done_iff c hI).mpr ⟨he, hc⟩)
  · intro hc
    constructor
    · intro r h1
      have h2 := (SeqInv_pop hI h1).ring
      rw [contents_eq_drop h2, contents_eq_drop hI.ring,
        drop_of_take_concat hI.ring.pre h2.pre]
      simp [fifo_pop]
    · intro hf
      exact isDone_iff.mp ((queue_pop_done_iff hI).mpr ⟨hf, hc⟩)
  · intro sys q0 qi ops res hi hfresh hr
    obtain ⟨h2, _⟩ := run_done_spec ops qi [] [] (res, q) (SeqInv_init hi hfresh) hr
    have h3 := h2.hE
    have h4 := h2.hF
    simp only at h3 h4
    exact ⟨fun _ => by omega, fun _ => by omega⟩

/-- Instance of `fifo_refinement`: a queue whose characters wrap around the end
of the buffer. -/
theorem fifo_refinement_witness :
    SeqReach wrapped_queue ∧
    ((∀ (sys : SysCalls) (q0 qi : queue_s), queue_init sys q0 = some qi →
      contents qi = fifo_init) ∧
    (contents wrapped_queue).length = wrapped_queue.count ∧
    (wrapped_queue.count < MAX → ∀ c,
      (∀ q1, queue_append wrapped_queue c = .done q1 →
        contents q1 = fifo_append (contents wrapped_queue) c) ∧
      (0 < wrapped_queue.empty → ∃ q1, queue_append wrapped_queue c = .done q1)) ∧
    (0 < wrapped_queue.count →
      (∀ r, queue_pop wrapped_queue = .done r →
        fifo_pop (contents wrapped_queue) = some (r.1, contents r.2)) ∧
      (0 < wrapped_queue.full → ∃ r, queue_pop wrapped_queue = .done r)) ∧
    (∀ (sys : SysCalls) (q0 qi : queue_s) (ops : List Op) (res : List Char),
      queue_init sys q0 = some qi → sys.fresh = true →
      run qi ops = .done (res, wrapped_queue) →
      (wrapped_queue.count < MAX → 0 < wrapped_queue.empty) ∧
      (0 < wrapped_queue.count → 0 < wrapped_queue.full))) :=
  ⟨SeqReach_run wrapped_ops fresh_queue (['a', 'b', 'c', 'd', 'e'], wrapped_queue)
      (SeqReach.init SysCalls.allOk stale_queue fresh_queue rfl) rfl,
    fifo_refinement wrapped_queue
      (SeqReach_run wrapped_ops fresh_queue (['a', 'b', 'c', 'd', 'e'], wrapped_queue)
        (SeqReach.init SysCalls.allOk stale_queue fresh_queue rfl) rfl)⟩

/-- The abstraction on `wrapped_queue`, whose characters sit in slots `5` to
`9` and `0` to `3`, and after one more append and after a pop. -/
theorem contents_wrapped_queue :
    (wrapped_queue.out, wrapped_queue.in_, wrapped_queue.count) = (5, 4, 9) ∧
    contents wrapped_queue = "fghijklmn".toList ∧
    (queue_append wrapped_queue 'o').get?.map contents = some "fghijklmno".toList ∧
    (queue_pop wrapped_queue).get?.map (fun r => (r.1, contents r.2)) =
      some ('f', "ghijklmn".toList) := by
  refine ⟨by decide, by decide, by decide, by decide⟩

/-! ## Lock discipline -/

/-- A thread holds the mutex at most once. -/
theorem holdsMutex_le_one (t : Thread) : holdsMutex t ≤ 1 := by
  cases hpc : t.pc <;> rcases hprog : t.prog with _ | ⟨op, rest⟩ <;>
    simp [holdsMutex, hpc, hprog]

/-- A thread that holds the mutex is about to run its critical section or to
unlock, and is between its `sem_wait` and its `sem_post`. -/
theorem holdsMutex_eq_one {t : Thread} (h : holdsMutex t = 1) :
    (t.pc = .locked ∨ t.pc = .bodydone) ∧ heldEmpty t + pendingFull t = 1 := by
  cases hpc : t.pc <;> rcases hprog : t.prog with _ | ⟨_ | _, rest⟩ <;>
    simp [holdsMutex, heldEmpty, pendingFull, hpc, hprog] at h ⊢

/-- What a step of a thread leaves unchanged: outside the critical section
`buffer`, `in`, `out` and `count`; by the holder of the mutex, and by a lock
or unlock, the semaphores. -/
theorem stepThread_frame {q q1 : queue_s} {t t1 : Thread}
    (h : stepThread q t = .done (q1, t1)) :
    ((holdsMutex t = 0 ∨ holdsMutex t1 = 0) →
      q1.buffer = q.buffer ∧ q1.in_ = q.in_ ∧ q1.out = q.out ∧ q1.count = q.count) ∧
    ((holdsMutex t = 1 ∨ q1.mutex ≠ q.mutex) → q1.empty = q.empty ∧ q1.full = q.full) := by
  unfold stepThread at h
  split at h
  · cases h
  · rename_i c rest hprog
    split at h <;> rename_i hpc
    · obtain ⟨a, ha, h⟩ := bind_done h
      obtain ⟨_, rfl⟩ := sem_wait_empty_done ha
      cases h
      simp [holdsMutex, hprog, hpc]
    · obtain ⟨a, ha, h⟩ := bind_done h
      obtain ⟨_, rfl⟩ := pthread_mutex_lock_done ha
      cases h
      simp [holdsMutex, hprog, hpc]
    · obtain ⟨a, ha, h⟩ := bind_done h
      obtain ⟨_, _, rfl⟩ := append_body_done ha
      cases h
      simp [holdsMutex, hprog, hpc]
    · obtain ⟨a, ha, h⟩ := bind_done h
      obtain ⟨_, rfl⟩ := pthread_mutex_unlock_done ha
      cases h
      simp [holdsMutex, hprog, hpc]
    · cases h
      simp [holdsMutex, hprog, hpc, sem_post_full]
  · rename_i rest hprog
    split at h <;> rename_i hpc
    · obtain ⟨a, ha, h⟩ := bind_done h
      obtain ⟨_, rfl⟩ := sem_wait_full_done ha
      cases h
      simp [holdsMutex, hprog, hpc]
    · obtain ⟨a, ha, h⟩ := bind_done h
      obtain ⟨_, rfl⟩ := pthread_mutex_lock_done ha
      cases h
      simp [holdsMutex, hprog, hpc]
    · obtain ⟨a, ha, h⟩ := bind_done h
      obtain ⟨_, _, _, hr, _⟩ := pop_body_done ha
      cases h
      rw [hr]
      simp [holdsMutex, hprog, hpc]
    · obtain ⟨a, ha, h⟩ := bind_done h
      obtain ⟨_, rfl⟩ := pthread_mutex_unlock_done ha
      cases h
      simp [holdsMutex, hprog, hpc]
    · cases h
      simp [holdsMutex, hprog, hpc, sem_post_empty]

/-- When the threads are started nobody holds the mutex. -/
theorem OwnInv_start {sys : SysCalls} {q0 q : queue_s} (progs : List (List Op))
    (h : queue_init sys q0 = some q) : OwnInv (startState q progs) none := by
  have hm : q.mutex = false := (queue_init_done h).2.2.2.2.2.1
  refine ⟨?_, ?_, ?_⟩
  · show false = q.mutex
    rw [hm]
  · intro j hj
    cases hj
  · intro k t ht hh
    have hmem : t ∈ (startState q progs).threads := List.getElem?_mem ht
    simp only [startState, List.mem_map] at hmem
    obtain ⟨p, _, rfl⟩ := hmem
    simp [holdsMutex, Thread.start] at hh

/-- A step keeps the invariant of the holder of the mutex. -/
theorem OwnInv_step {s s1 : State} {i : Nat} {o : Option Nat} (hO : OwnInv s o)
    (h : step s i = .done s1) : OwnInv s1 (ownerAfter s s1 i o) := by
  obtain ⟨t, r, ht, hr, rfl⟩ := step_done h
  obtain ⟨q1, t1⟩ := r
  obtain ⟨_, _, hM, _, _, _⟩ := stepThread_spec hr
  have l0 := holdsMutex_le_one t
  have l1 := holdsMutex_le_one t1
  obtain ⟨h1, h2, h3⟩ := hO
  have hlt : i < s.threads.length := by
    rcases Nat.lt_or_ge i s.threads.length with hlt | hge
    · exact hlt
    · rw [List.getElem?_eq_none hge] at ht
      cases ht
  have hget : ∀ k, (s.threads.set i t1)[k]? = if i = k then some t1 else s.threads[k]? := by
    intro k
    rw [List.getElem?_set]
    by_cases hik : i = k
    · subst hik
      simp [hlt]
    · simp [hik]
  cases hm : s.q.mutex <;> cases hm1 : q1.mutex <;> rw [hm, hm1] at hM <;>
    simp only [ownerAfter, hm, hm1, Bool.not_false, Bool.not_true, Bool.and_true,
      Bool.and_false, Bool.false_and, Bool.true_and, if_true, if_false,
      Bool.false_eq_true] <;>
    simp only [if_true, if_false, Bool.false_eq_true] at hM
  · refine ⟨by rw [h1, hm, hm1], ?_, ?_⟩
    · intro j hj
      obtain ⟨tj, htj, hhj⟩ := h2 j hj
      show ∃ t, (s.threads.set i t1)[j]? = some t ∧ holdsMutex t = 1
      rw [hget]
      by_cases hij : i = j
      · subst hij
        rw [ht] at htj
        cases htj
        exact ⟨t1, by simp, by omega⟩
      · exact ⟨tj, by simp [hij, htj], hhj⟩
    · intro k tk htk hhk
      change (s.threads.set i t1)[k]? = some tk at htk
      rw [hget] at htk
      by_cases hik : i = k
      · subst hik
        simp only [if_true, Option.some.injEq] at htk
        subst htk
        exact h3 i t ht (by omega)
      · simp only [hik, if_false] at htk
        exact h3 k tk htk hhk
  · have ho : o = none := by
      cases o with
      | none => rfl
      | some j => rw [hm] at h1; cases h1
    refine ⟨by rw [hm1]; rfl, ?_, ?_⟩
    · intro j hj
      cases hj
      exact ⟨t1, by
        show (s.threads.set i t1)[i]? = some t1
        rw [hget]; simp, by omega⟩
    · intro k tk htk hhk
      change (s.threads.set i t1)[k]? = some tk at htk
      rw [hget] at htk
      by_cases hik : i = k
      · rw [hik]
      · simp only [hik, if_false] at htk
        have := h3 k tk htk hhk
        rw [ho] at this
        cases this
  · have ho : o = some i := h3 i t ht (by omega)
    refine ⟨by rw [hm1]; rfl, ?_, ?_⟩
    · intro j hj
      cases hj
    · intro k tk htk hhk
      change (s.threads.set i t1)[k]? = some tk at htk
      rw [hget] at htk
      by_cases hik : i = k
      · subst hik
        simp only [if_true, Option.some.injEq] at htk
        subst htk
        omega
      · simp only [hik, if_false] at htk
        have := h3 k tk htk hhk
        rw [ho] at this
        exact absurd (Option.some.inj this) hik
  · refine ⟨by rw [h1, hm, hm1], ?_, ?_⟩
    · intro j hj
      obtain ⟨tj, htj, hhj⟩ := h2 j hj
      show ∃ t, (s.threads.set i t1)[j]? = some t ∧ holdsMutex t = 1
      rw [hget]
      by_cases hij : i = j
      · subst hij
        rw [ht] at htj
        cases htj
        exact ⟨t1, by simp, by omega⟩
      · exact ⟨tj, by simp [hij, htj], hhj⟩
    · intro k tk htk hhk
      change (s.threads.set i t1)[k]? = some tk at htk
      rw [hget] at htk
      by_cases hik : i = k
      · subst hik
        simp only [if_true, Option.some.injEq] at htk
        subst htk
        exact h3 i t ht (by omega)
      · simp only [hik, if_false] at htk
        exact h3 k tk htk hhk

/-- Keeping track of the holder does not change the run. -/
theorem execOwner_exec (sched : List Nat) : ∀ (s : State) (o : Option Nat)
    (r : State × Option Nat), execOwner s o sched = .done r → exec s sched = .done r.1 := by
  induction sched with
  | nil =>
    intro s o r h
    cases h
    rfl
  | cons i rest ih =>
    intro s o r h
    obtain ⟨s1, h1, h⟩ := bind_done h
    simp only [exec, h1, Outcome.bind]
    exact ih s1 _ r h

/-- A schedule keeps the invariant of the holder of the mutex. -/
theorem OwnInv_execOwner (sched : List Nat) : ∀ (s : State) (o : Option Nat)
    (r : State × Option Nat), OwnInv s o → execOwner s o sched = .done r →
    OwnInv r.1 r.2 := by
  induction sched with
  | nil =>
    intro s o r hO h
    cases h
    exact hO
  | cons i rest ih =>
    intro s o r hO h
    obtain ⟨s1, h1, h⟩ := bind_done h
    exact ih s1 _ r (OwnInv_step hO h1) h

/-- When `queue_init` created the semaphores the holder of the mutex can
always take its step. -/
theorem holder_step_done {s : State} {P T : List Char} {j : Nat} {t : Thread}
    (hI : Inv MAX 0 s P T) (ht : s.threads[j]? = some t) (hh : holdsMutex t = 1) :
    ∃ s1, step s j = .done s1 := by
  rcases step_safe hI j with h | h
  · exfalso
    have h1 := (stepThread_defined hI ht).2 hh
    unfold step at h
    rw [ht] at h
    simp only at h
    cases hs : stepThread s.q t with
    | done a => rw [hs] at h; cases h
    | blocked => exact h1 hs
    | abort => rw [hs] at h; cases h
    | undefined => rw [hs] at h; cases h
  · exact h

/-- Whatever values `queue_init` left in the semaphores, the holder of the
mutex does not wait. -/
theorem holder_not_blocked {e0 f0 : Nat} {s : State} {P T : List Char} {j : Nat}
    {t : Thread} (hI : Inv e0 f0 s P T) (ht : s.threads[j]? = some t)
    (hh : holdsMutex t = 1) : step s j ≠ .blocked := by
  have h1 := (stepThread_defined hI ht).2 hh
  intro h
  unfold step at h
  rw [ht] at h
  simp only at h
  cases hs : stepThread s.q t with
  | done a => rw [hs] at h; cases h
  | blocked => exact h1 hs
  | abort => rw [hs] at h; cases h
  | undefined => rw [hs] at h; cases h

/-- C15: lock discipline.  Along every schedule from `queue_init`, with the
holder of the mutex being the thread whose step took it: there is a holder
exactly when the mutex is held; the holder is between its `sem_wait` and its
`sem_post` and about to run its critical section or to unlock; a thread that
cannot step (it waits on a semaphore or for the mutex) is not the holder; a
step that changes a semaphore is taken by a thread that does not hold the
mutex before or after it; and a step that changes `buffer`, `in`, `out` or
`count` is taken by the holder, the mutex being held before and after. -/
theorem lock_discipline (sys : SysCalls) (q0 q : queue_s) (progs : List (List Op))
    (sched : List Nat) (s : State) (o : Option Nat) (hinit : queue_init sys q0 = some q)
    (hx : execOwner (startState q progs) none sched = .done (s, o)) :
    o.isSome = s.q.mutex ∧
    (∀ j, o = some j → ∃ t, s.threads[j]? = some t ∧
      (t.pc = .locked ∨ t.pc = .bodydone) ∧ heldEmpty t + pendingFull t = 1) ∧
    (∀ j, step s j = .blocked → o ≠ some j) ∧
    ∀ j s1, step s j = .done s1 →
      ((s1.q.empty ≠ s.q.empty ∨ s1.q.full ≠ s.q.full) →
        o ≠ some j ∧ ownerAfter s s1 j o ≠ some j) ∧
      ((s1.q.buffer ≠ s.q.buffer ∨ s1.q.in_ ≠ s.q.in_ ∨ s1.q.out ≠ s.q.out ∨
          s1.q.count ≠ s.q.count) →
        o = some j ∧ s.q.mutex = true ∧ s1.q.mutex = true) := by
  have hO : OwnInv s o := OwnInv_execOwner sched _ none (s, o) (OwnInv_start progs hinit) hx
  obtain ⟨P, T, hI⟩ := Inv_reach hinit (execOwner_exec sched _ none (s, o) hx)
  refine ⟨hO.some_iff, ?_, ?_, ?_⟩
  · intro j hj
    obtain ⟨t, ht, hh⟩ := hO.owner_holds j hj
    exact ⟨t, ht, holdsMutex_eq_one hh⟩
  · intro j hb hj
    obtain ⟨t, ht, hh⟩ := hO.owner_holds j hj
    exact holder_not_blocked hI ht hh hb
  · intro j s1 hs
    have hO1 := OwnInv_step hO hs
    obtain ⟨t, r, ht, hr, rfl⟩ := step_done hs
    obtain ⟨q1, t1⟩ := r
    obtain ⟨f1, f2⟩ := stepThread_frame hr
    obtain ⟨_, _, hM, _, _, _⟩ := stepThread_spec hr
    have l0 := holdsMutex_le_one t
    have l1 := holdsMutex_le_one t1
    have hlt : j < s.threads.length := by
      rcases Nat.lt_or_ge j s.threads.length with hlt | hge
      · exact hlt
      · rw [List.getElem?_eq_none hge] at ht
        cases ht
    have hget1 : (s.threads.set j t1)[j]? = some t1 := by
      rw [List.getElem?_set]; simp [hlt]
    constructor
    · intro hsem
      have hsem1 : ¬ (q1.empty = s.q.empty ∧ q1.full = s.q.full) := by
        intro hc
        rcases hsem with h | h
        · exact h hc.1
        · exact h hc.2
      constructor
      · intro hj
        obtain ⟨t0, ht0, hh⟩ := hO.owner_holds j hj
        rw [ht] at ht0
        cases ht0
        exact hsem1 (f2 (Or.inl hh))
      · intro hj
        obtain ⟨t0, ht0, hh⟩ := hO1.owner_holds j hj
        change (s.threads.set j t1)[j]? = some t0 at ht0
        rw [hget1] at ht0
        cases ht0
        have hmm : q1.mutex = s.q.mutex := by
          by_contra hne
          exact hsem1 (f2 (Or.inr hne))
        rw [hmm] at hM
        have : holdsMutex t = 1 := by omega
        exact hsem1 (f2 (Or.inl this))
    · intro hdata
      have hdata1 : ¬ (q1.buffer = s.q.buffer ∧ q1.in_ = s.q.in_ ∧ q1.out = s.q.out ∧
          q1.count = s.q.count) := by
        intro hc
        rcases hdata with h | h | h | h
        · exact h hc.1
        · exact h hc.2.1
        · exact h hc.2.2.1
        · exact h hc.2.2.2
      have ht0 : holdsMutex t = 1 := by
        by_contra hne
        exact hdata1 (f1 (Or.inl (by omega)))
      have ht1 : holdsMutex t1 = 1 := by
        by_contra hne
        exact hdata1 (f1 (Or.inr (by omega)))
      have hj := hO.holder_owns j t ht ht0
      have hm : s.q.mutex = true := by
        rw [← hO.some_iff, hj]
        rfl
      refine ⟨hj, hm, ?_⟩
      show q1.mutex = true
      rw [ht0, ht1, hm] at hM
      cases hm1 : q1.mutex
      · rw [hm1] at hM
        simp at hM
      · rfl

/-- Instance of `lock_discipline`: `main` stopped after the producer's second
critical section, the producer holding the mutex and the consumer waiting
for it. -/
theorem lock_discipline_witness :
    queue_init SysCalls.allOk stale_queue = some fresh_queue ∧
    execOwner (startState fresh_queue harness_progs) none sched_mid =
      .done (state_mid, some 1) ∧
    ((some 1 : Option Nat).isSome = state_mid.q.mutex ∧
    (∀ j, some 1 = some j → ∃ t, state_mid.threads[j]? = some t ∧
      (t.pc = .locked ∨ t.pc = .bodydone) ∧ heldEmpty t + pendingFull t = 1) ∧
    (∀ j, step state_mid j = .blocked → some 1 ≠ some j) ∧
    ∀ j s1, step state_mid j = .done s1 →
      ((s1.q.empty ≠ state_mid.q.empty ∨ s1.q.full ≠ state_mid.q.full) →
        some 1 ≠ some j ∧ ownerAfter state_mid s1 j (some 1) ≠ some j) ∧
      ((s1.q.buffer ≠ state_mid.q.buffer ∨ s1.q.in_ ≠ state_mid.q.in_ ∨
          s1.q.out ≠ state_mid.q.out ∨ s1.q.count ≠ state_mid.q.count) →
        some 1 = some j ∧ state_mid.q.mutex = true ∧ s1.q.mutex = true)) :=
  ⟨rfl, rfl,
    lock_discipline SysCalls.allOk stale_queue fresh_queue harness_progs sched_mid
      state_mid (some 1) rfl rfl⟩

/-- The state `state_mid`: the producer, past its critical section, holds
the mutex; the consumer, past its `sem_wait`, cannot take it; the producer's
unlock frees it. -/
theorem state_mid_holder :
    state_mid.threads.map (fun t => t.pc) = [PC.waited, PC.bodydone] ∧
    state_mid.q.mutex = true ∧
    (step state_mid 0).isDone = false ∧
    (step state_mid 1).get?.map (fun s1 => (s1.q.mutex, ownerAfter state_mid s1 1 (some 1))) =
      some (false, none) := by
  refine ⟨by decide, by decide, by decide, by decide⟩

/-- The holder along `sched_pop_locked`: after the consumer's lock it is the
consumer, thread `0`, and its critical section changes `out` and `count`
with the mutex held. -/
theorem state_pop_locked_holder :
    execOwner (startState fresh_queue harness_progs) none sched_pop_locked =
      .done (state_pop_locked, some 0) ∧
    (step state_pop_locked 0).get?.map
      (fun s1 => (s1.q.out, s1.q.count, s1.q.mutex, s1.q.empty, s1.q.full)) =
      some (1, 0, true, state_pop_locked.q.empty, state_pop_locked.q.full) := by
  refine ⟨rfl, by decide⟩

end Sema
